import Mathlib

/-!
Verification development for the Voronoi map-partitioning engine
(GenerateMap class: mainland selection, connected-component analysis,
seeded region growth, boundary rebalancing, border extraction).

Modelling conventions:
* JS numbers are modelled by an arbitrary scalar type K.  The graph
  algorithms (adjacency, components, border cancellation, share-edge)
  compare coordinates only for exact equality, so they need just
  DecidableEq K; the geometric parts (centroids, nearest-centre search,
  point-in-polygon) additionally need a LinearOrderedField, and the
  island shape function is stated over the reals (sin, cos, sqrt, atan2).
* A JS Map with string keys built from coordinate pairs is modelled as an
  association list keyed by the coordinate pairs themselves (distinct
  numbers render to distinct key strings, so the keying is the same);
  Map.set overwrites in place, Map.delete removes, iteration order is
  insertion order.
* A JS Set of tile indices is modelled as a duplicate-free list in
  insertion order (insertOnce).
* JS object identity on tiles is modelled by value equality; theorems
  that depend on identity carry a Nodup hypothesis on the tile list.
* while-loops are modelled by structural recursion on an explicit fuel
  that is provably sufficient (each productive pass strictly decreases a
  natural measure), so all definitions compute by kernel reduction.
-/

namespace GenMap

/-- A point: an (x, y) coordinate pair. -/
abbrev Pt (K : Type) := K × K

/-- A tile: the ordered vertex list of one Voronoi cell. -/
abbrev Polygon (K : Type) := List (Pt K)

/-- Directed edge list of a polygon: (poly[i], poly[(i+1) % n]) for each i. -/
def polyEdges {K : Type} (poly : Polygon K) : List (Pt K × Pt K) :=
  poly.zip (poly.rotate 1)

/-- JS Map lookup (edge-keyed maps use the coordinate pairs as keys). -/
def mapFind? {A B : Type} [DecidableEq A] (m : List (A × B)) (k : A) : Option B :=
  (m.find? (fun kv => kv.1 = k)).map (fun kv => kv.2)

/-- JS Map.set: overwrite in place when the key is present, append otherwise. -/
def mapSet {A B : Type} [DecidableEq A] (m : List (A × B)) (k : A) (v : B) : List (A × B) :=
  if (m.find? (fun kv => kv.1 = k)).isSome then
    m.map (fun kv => if kv.1 = k then (k, v) else kv)
  else m ++ [(k, v)]

/-- JS Map.delete: drop the entry with the given key. -/
def mapDelete {A B : Type} [DecidableEq A] (m : List (A × B)) (k : A) : List (A × B) :=
  m.filter (fun kv => kv.1 ≠ k)

/-- JS Set.add on an index set kept in insertion order. -/
def insertOnce (l : List ℕ) (x : ℕ) : List ℕ :=
  if x ∈ l then l else l ++ [x]

/-- Record mutual adjacency of tile indices i and j
(adj.get(i).add(j); adj.get(j).add(i)). -/
def addAdjBoth (adj : List (List ℕ)) (i j : ℕ) : List (List ℕ) :=
  let a1 := adj.set i (insertOnce (adj.getD i []) j)
  a1.set j (insertOnce (a1.getD j []) i)

/-- One directed edge of tile idx, processed against the edge map of
splitConnectedComponents / buildAdjacency: a recorded reverse key links the
two tiles, otherwise the edge is recorded under its own key. -/
def adjEdgeStep {K : Type} [DecidableEq K]
    (st : List (List ℕ) × List ((Pt K × Pt K) × ℕ)) (idx : ℕ) (e : Pt K × Pt K) :
    List (List ℕ) × List ((Pt K × Pt K) × ℕ) :=
  match mapFind? st.2 (e.2, e.1) with
  | some j => (addAdjBoth st.1 idx j, st.2)
  | none => (st.1, mapSet st.2 e idx)

/-- Tile adjacency from exactly reversed shared edges (buildAdjacency; the
same inline construction opens splitConnectedComponents). -/
def buildAdjacency {K : Type} [DecidableEq K] (polys : List (Polygon K)) : List (List ℕ) :=
  (polys.enum.foldl
    (fun st ip => (polyEdges ip.2).foldl (fun st e => adjEdgeStep st ip.1 e) st)
    (List.replicate polys.length [], [])).1

/-- Breadth-first traversal: pop the queue head into the component, mark and
push its unvisited neighbours.  The fuel argument makes the recursion
structural; queue.length + |range N \ vis| falls by exactly one per step, so
that much fuel always empties the queue. -/
def bfsRun (adj : ℕ → List ℕ) (N : ℕ) :
    ℕ → List ℕ → Finset ℕ → List ℕ → List ℕ × Finset ℕ
  | 0, _, vis, comp => (comp, vis)
  | _ + 1, [], vis, comp => (comp, vis)
  | fuel + 1, u :: rest, vis, comp =>
      let fresh := (adj u).filter (fun v => decide (v < N) && decide (v ∉ vis))
      bfsRun adj N fuel (rest ++ fresh) (vis ∪ fresh.toFinset) (comp ++ [u])

/-- Outer loop of component extraction: BFS from each unvisited index in
order, collecting the components in discovery order. -/
def componentsLoopF (adj : ℕ → List ℕ) (N : ℕ) :
    ℕ → ℕ → Finset ℕ → List (List ℕ) → List (List ℕ)
  | 0, _, _, acc => acc
  | fuel + 1, i, vis, acc =>
      if i < N then
        if i ∈ vis then componentsLoopF adj N fuel (i + 1) vis acc
        else
          let st := bfsRun adj N (1 + (Finset.range N \ insert i vis).card)
            [i] (insert i vis) []
          componentsLoopF adj N fuel (i + 1) st.2 (acc ++ [st.1])
      else acc

/-- All connected components (as index lists) in discovery order. -/
def connectedComponentsIdx (adj : ℕ → List ℕ) (N : ℕ) : List (List ℕ) :=
  componentsLoopF adj N N 0 ∅ []

/-- splitConnectedComponents: empty (or null) input gives no components;
otherwise BFS over the reversed-shared-edge adjacency returns every
component as a tile list. -/
def splitConnectedComponents {K : Type} [DecidableEq K] (polys : List (Polygon K)) :
    List (List (Polygon K)) :=
  if polys.length = 0 then []
  else
    let adj := buildAdjacency polys
    let comps := connectedComponentsIdx (fun u => adj.getD u []) polys.length
    comps.map (fun comp => comp.map (fun u => polys.getD u []))

/-! ### Basic facts about the JS-collection models -/

lemma mem_insertOnce {l : List ℕ} {x y : ℕ} :
    y ∈ insertOnce l x ↔ y ∈ l ∨ y = x := by
  unfold insertOnce
  by_cases h : x ∈ l
  · rw [if_pos h]
    constructor
    · exact Or.inl
    · rintro (hy | rfl)
      · exact hy
      · exact h
  · rw [if_neg h]
    simp

lemma insertOnce_nodup {l : List ℕ} (h : l.Nodup) (x : ℕ) :
    (insertOnce l x).Nodup := by
  unfold insertOnce
  by_cases hx : x ∈ l
  · rw [if_pos hx]; exact h
  · rw [if_neg hx]
    refine List.Nodup.append h (List.nodup_singleton x) ?_
    intro a ha hax
    simp only [List.mem_singleton] at hax
    exact hx (hax ▸ ha)

lemma getD_set_self {α : Type} {l : List α} {i : ℕ} (h : i < l.length) (x d : α) :
    (l.set i x).getD i d = x := by
  simp [List.getD_eq_getElem?_getD, List.getElem?_set_self h]

lemma getD_set_ne {α : Type} {l : List α} {i j : ℕ} (h : i ≠ j) (x d : α) :
    (l.set i x).getD j d = l.getD j d := by
  simp [List.getD_eq_getElem?_getD, List.getElem?_set_ne h]

/-! ### Adjacency-list invariants

AdjGood adj N: the adjacency table has N rows, every row is a
duplicate-free index set, and the relation it stores is symmetric with
all indices below N. -/

def AdjGood (adj : List (List ℕ)) (N : ℕ) : Prop :=
  adj.length = N ∧ (∀ u, (adj.getD u []).Nodup) ∧
  (∀ u v, v ∈ adj.getD u [] → u < N ∧ v < N ∧ u ∈ adj.getD v [])

lemma getD_replicate_nil (N u : ℕ) :
    (List.replicate N ([] : List ℕ)).getD u [] = [] := by
  rcases Nat.lt_or_ge u N with h | h
  · simp [List.getD_eq_getElem?_getD, List.getElem?_replicate, h]
  · rw [List.getD_eq_getElem?_getD, List.getElem?_eq_none]
    · rfl
    · simpa using h

lemma adjGood_replicate (N : ℕ) : AdjGood (List.replicate N []) N := by
  refine ⟨List.length_replicate _ _, fun u => ?_, fun u v hv => ?_⟩
  · rw [getD_replicate_nil]
    exact List.nodup_nil
  · rw [getD_replicate_nil] at hv
    exact absurd hv (List.not_mem_nil v)

lemma getD_addAdjBoth (adj : List (List ℕ)) {N i j : ℕ} (hlen : adj.length = N)
    (hi : i < N) (hj : j < N) (u : ℕ) :
    (addAdjBoth adj i j).getD u [] =
      if u = j then insertOnce ((adj.set i (insertOnce (adj.getD i []) j)).getD j []) i
      else if u = i then insertOnce (adj.getD i []) j
      else adj.getD u [] := by
  unfold addAdjBoth
  by_cases huj : u = j
  · subst huj
    rw [getD_set_self (by simp [hlen, hj])]
    simp
  · rw [getD_set_ne (fun h => huj h.symm)]
    by_cases hui : u = i
    · subst hui
      rw [getD_set_self (by rw [hlen]; exact hi)]
      simp [huj]
    · rw [getD_set_ne (fun h => hui h.symm)]
      simp [huj, hui]

lemma mem_addAdjBoth {adj : List (List ℕ)} {N i j : ℕ} (hlen : adj.length = N)
    (hi : i < N) (hj : j < N) {u v : ℕ} :
    v ∈ (addAdjBoth adj i j).getD u [] ↔
      v ∈ adj.getD u [] ∨ (u = i ∧ v = j) ∨ (u = j ∧ v = i) := by
  have hilen : i < adj.length := by rw [hlen]; exact hi
  have hjlen : j < adj.length := by rw [hlen]; exact hj
  show v ∈ ((adj.set i (insertOnce (adj.getD i []) j)).set j
      (insertOnce ((adj.set i (insertOnce (adj.getD i []) j)).getD j []) i)).getD u [] ↔ _
  by_cases hui : u = i <;> by_cases huj : u = j
  · subst hui
    subst huj
    rw [getD_set_self (by simpa using hilen), getD_set_self hilen]
    simp only [mem_insertOnce]
    tauto
  · subst hui
    rw [getD_set_ne (fun h => huj h.symm), getD_set_self hilen]
    simp only [mem_insertOnce]
    tauto
  · subst huj
    rw [getD_set_self (by simpa using hjlen), getD_set_ne (fun h => hui h.symm)]
    simp only [mem_insertOnce]
    tauto
  · rw [getD_set_ne (fun h => huj h.symm), getD_set_ne (fun h => hui h.symm)]
    tauto

lemma addAdjBoth_good {adj : List (List ℕ)} {N i j : ℕ} (h : AdjGood adj N)
    (hi : i < N) (hj : j < N) : AdjGood (addAdjBoth adj i j) N := by
  obtain ⟨hlen, hnd, hsym⟩ := h
  refine ⟨?_, fun u => ?_, fun u v hv => ?_⟩
  · unfold addAdjBoth
    simp [hlen]
  · rw [getD_addAdjBoth adj hlen hi hj]
    by_cases huj : u = j
    · rw [if_pos huj]
      refine insertOnce_nodup ?_ i
      by_cases hji : j = i
      · rw [hji, getD_set_self (by rw [hlen]; exact hi)]
        exact insertOnce_nodup (hnd i) i
      · rw [getD_set_ne (fun h => hji h.symm)]
        exact hnd j
    · rw [if_neg huj]
      by_cases hui : u = i
      · rw [if_pos hui]
        exact insertOnce_nodup (hnd i) j
      · rw [if_neg hui]
        exact hnd u
  · rw [mem_addAdjBoth hlen hi hj] at hv
    rcases hv with hv | ⟨rfl, rfl⟩ | ⟨rfl, rfl⟩
    · obtain ⟨h1, h2, h3⟩ := hsym u v hv
      exact ⟨h1, h2, by rw [mem_addAdjBoth hlen hi hj]; exact Or.inl h3⟩
    · exact ⟨hi, hj, by rw [mem_addAdjBoth hlen hi hj]; tauto⟩
    · exact ⟨hj, hi, by rw [mem_addAdjBoth hlen hi hj]; tauto⟩

lemma foldl_preserve {α β : Type} {P : β → Prop} (f : β → α → β) (l : List α) (st : β)
    (h0 : P st) (hstep : ∀ st a, a ∈ l → P st → P (f st a)) : P (l.foldl f st) := by
  induction l generalizing st with
  | nil => exact h0
  | cons a l ih =>
      exact ih (f st a) (hstep st a (List.mem_cons_self a l) h0)
        (fun st' b hb => hstep st' b (List.mem_cons_of_mem a hb))

lemma mem_mapSet {A B : Type} [DecidableEq A] {m : List (A × B)} {k : A} {v : B}
    {kv : A × B} (h : kv ∈ mapSet m k v) : kv ∈ m ∨ kv = (k, v) := by
  unfold mapSet at h
  by_cases hf : (m.find? (fun kv => kv.1 = k)).isSome
  · rw [if_pos hf] at h
    obtain ⟨kv', hkv', heq⟩ := List.mem_map.mp h
    by_cases hk : kv'.1 = k
    · rw [if_pos (by simp [hk])] at heq
      exact Or.inr heq.symm
    · rw [if_neg (by simp [hk])] at heq
      exact Or.inl (heq ▸ hkv')
  · rw [if_neg hf] at h
    rcases List.mem_append.mp h with h | h
    · exact Or.inl h
    · exact Or.inr (List.mem_singleton.mp h)

lemma mapFind?_mem {A B : Type} [DecidableEq A] {m : List (A × B)} {k : A} {v : B}
    (h : mapFind? m k = some v) : ∃ kv ∈ m, kv.2 = v := by
  unfold mapFind? at h
  rcases hf : m.find? (fun kv => kv.1 = k) with _ | kv
  · rw [hf] at h; simp at h
  · rw [hf] at h
    exact ⟨kv, List.mem_of_find?_eq_some hf, by simpa using h⟩

lemma adjEdgeStep_inv {K : Type} [DecidableEq K] {N : ℕ}
    {st : List (List ℕ) × List ((Pt K × Pt K) × ℕ)} {idx : ℕ} {e : Pt K × Pt K}
    (h : AdjGood st.1 N ∧ ∀ kv ∈ st.2, kv.2 < N) (hidx : idx < N) :
    AdjGood (adjEdgeStep st idx e).1 N ∧ ∀ kv ∈ (adjEdgeStep st idx e).2, kv.2 < N := by
  obtain ⟨hadj, hmap⟩ := h
  unfold adjEdgeStep
  rcases hf : mapFind? st.2 (e.2, e.1) with _ | j
  · refine ⟨hadj, fun kv hkv => ?_⟩
    rcases mem_mapSet hkv with hkv | rfl
    · exact hmap kv hkv
    · exact hidx
  · obtain ⟨kv, hkv, rfl⟩ := mapFind?_mem hf
    exact ⟨addAdjBoth_good hadj hidx (hmap kv hkv), hmap⟩

lemma buildAdjacency_good {K : Type} [DecidableEq K] (polys : List (Polygon K)) :
    AdjGood (buildAdjacency polys) polys.length := by
  unfold buildAdjacency
  have h := foldl_preserve
    (P := fun st : List (List ℕ) × List ((Pt K × Pt K) × ℕ) =>
      AdjGood st.1 polys.length ∧ ∀ kv ∈ st.2, kv.2 < polys.length)
    (fun st ip => (polyEdges ip.2).foldl (fun st e => adjEdgeStep st ip.1 e) st)
    polys.enum (List.replicate polys.length [], [])
    ⟨adjGood_replicate polys.length, by simp⟩
    (fun st ip hip hst => ?_)
  · exact h.1
  · have hlt : ip.1 < polys.length := by
      rcases ip with ⟨i, p⟩
      exact (List.mem_enum hip).1
    exact foldl_preserve _ (polyEdges ip.2) st hst
      (fun st' e _ hst' => adjEdgeStep_inv hst' hlt)

/-! ### Breadth-first search: specification

ReachWithin adj S a b: b is reachable from a through the adjacency
function adj along a path all of whose vertices lie in S. -/

def ReachWithin (adj : ℕ → List ℕ) (S : List ℕ) : ℕ → ℕ → Prop :=
  Relation.ReflTransGen (fun p q => q ∈ adj p ∧ p ∈ S ∧ q ∈ S)

lemma reachWithin_mono {adj : ℕ → List ℕ} {S T : List ℕ} (hST : ∀ x, x ∈ S → x ∈ T)
    {a b : ℕ} (h : ReachWithin adj S a b) : ReachWithin adj T a b :=
  Relation.ReflTransGen.mono (fun _ _ hpq => ⟨hpq.1, hST _ hpq.2.1, hST _ hpq.2.2⟩) h

lemma reachWithin_symm {adj : ℕ → List ℕ} {S : List ℕ}
    (hsym : ∀ p q, q ∈ adj p → p ∈ adj q) {a b : ℕ}
    (h : ReachWithin adj S a b) : ReachWithin adj S b a :=
  Relation.ReflTransGen.symmetric
    (fun p q hpq => ⟨hsym p q hpq.1, hpq.2.2, hpq.2.1⟩) h

lemma bfsRun_zero (adj : ℕ → List ℕ) (N : ℕ) (queue : List ℕ) (vis : Finset ℕ)
    (comp : List ℕ) : bfsRun adj N 0 queue vis comp = (comp, vis) := rfl

lemma bfsRun_nil (adj : ℕ → List ℕ) (N fuel : ℕ) (vis : Finset ℕ) (comp : List ℕ) :
    bfsRun adj N (fuel + 1) [] vis comp = (comp, vis) := rfl

lemma bfsRun_spec (adj : ℕ → List ℕ) (N : ℕ) (root : ℕ)
    (hadj : ∀ u, (adj u).Nodup) :
    ∀ (fuel : ℕ) (queue : List ℕ) (vis : Finset ℕ) (comp : List ℕ) (B : Finset ℕ),
      queue.length + (Finset.range N \ vis).card ≤ fuel →
      vis = B ∪ comp.toFinset ∪ queue.toFinset →
      (comp ++ queue).Nodup →
      (∀ x ∈ comp ++ queue, x ∉ B) →
      (∀ x ∈ comp ++ queue, ReachWithin adj (comp ++ queue) root x) →
      ∃ d,
        (bfsRun adj N fuel queue vis comp).1 = comp ++ d ∧
        (bfsRun adj N fuel queue vis comp).2 = B ∪ (comp ++ d).toFinset ∧
        (comp ++ d).Nodup ∧
        (∀ x ∈ comp ++ d, x ∉ B) ∧
        (∀ x ∈ d, x ∈ queue ∨ x < N) ∧
        (∀ x ∈ queue, x ∈ comp ++ d) ∧
        (∀ x ∈ comp ++ d, ReachWithin adj (comp ++ d) root x) := by
  intro fuel
  induction fuel with
  | zero =>
      intro queue vis comp B hfuel hvis hnd hB hreach
      have hq : queue = [] := by
        have := Nat.le_zero.mp hfuel
        exact List.length_eq_zero.mp (Nat.eq_zero_of_add_eq_zero_right this)
      subst hq
      refine ⟨[], by rw [bfsRun_zero]; simp, ?_, by simpa using hnd, ?_, by simp,
        by simp, ?_⟩
      · rw [bfsRun_zero, hvis]
        simp
      · simpa using hB
      · simpa using hreach
  | succ fuel ih =>
      intro queue vis comp B hfuel hvis hnd hB hreach
      match queue with
      | [] =>
          refine ⟨[], by rw [bfsRun_nil]; simp, ?_, by simpa using hnd, ?_, by simp,
            by simp, ?_⟩
          · rw [bfsRun_nil, hvis]
            simp
          · simpa using hB
          · simpa using hreach
      | u :: rest =>
          set fresh := (adj u).filter (fun v => decide (v < N) && decide (v ∉ vis))
            with hfresh
          have hfresh_mem : ∀ v, v ∈ fresh ↔ v ∈ adj u ∧ v < N ∧ v ∉ vis := by
            intro v
            simp [hfresh, List.mem_filter]
          have hfresh_nd : fresh.Nodup := List.Nodup.filter _ (hadj u)
          have hstep : bfsRun adj N (fuel + 1) (u :: rest) vis comp =
              bfsRun adj N fuel (rest ++ fresh) (vis ∪ fresh.toFinset) (comp ++ [u]) := rfl
          -- the new state satisfies the invariants
          have hsub : fresh.toFinset ⊆ Finset.range N \ vis := by
            intro v hv
            rw [List.mem_toFinset, hfresh_mem] at hv
            simp [Finset.mem_sdiff, Finset.mem_range, hv.2.1, hv.2.2]
          have hcard : (Finset.range N \ (vis ∪ fresh.toFinset)).card =
              (Finset.range N \ vis).card - fresh.length := by
            have : Finset.range N \ (vis ∪ fresh.toFinset) =
                (Finset.range N \ vis) \ fresh.toFinset := by
              ext a
              simp [Finset.mem_sdiff]
              tauto
            rw [this, Finset.card_sdiff hsub, List.toFinset_card_of_nodup hfresh_nd]
          have hflen : fresh.length ≤ (Finset.range N \ vis).card := by
            rw [← List.toFinset_card_of_nodup hfresh_nd]
            exact Finset.card_le_card hsub
          have hfuel2 : (rest ++ fresh).length +
              (Finset.range N \ (vis ∪ fresh.toFinset)).card ≤ fuel := by
            rw [List.length_append, hcard]
            simp only [List.length_cons] at hfuel
            omega
          have hvisq : ∀ x ∈ comp ++ u :: rest, x ∈ vis := by
            intro x hx
            rw [hvis]
            simp only [Finset.mem_union, List.mem_toFinset]
            rcases List.mem_append.mp hx with hx | hx
            · exact Or.inl (Or.inr hx)
            · exact Or.inr hx
          have hfresh_notin : ∀ v ∈ fresh, v ∉ comp ++ u :: rest := by
            intro v hv hvq
            exact ((hfresh_mem v).mp hv).2.2 (hvisq v hvq)
          have hvis2 : vis ∪ fresh.toFinset =
              B ∪ (comp ++ [u]).toFinset ∪ (rest ++ fresh).toFinset := by
            rw [hvis]
            ext a
            simp
            tauto
          have hnd2 : ((comp ++ [u]) ++ (rest ++ fresh)).Nodup := by
            have heq2 : (comp ++ [u]) ++ (rest ++ fresh) = (comp ++ u :: rest) ++ fresh := by
              simp
            rw [heq2, List.nodup_append]
            exact ⟨hnd, hfresh_nd, fun a ha hb => hfresh_notin a hb ha⟩
          have hB2 : ∀ x ∈ (comp ++ [u]) ++ (rest ++ fresh), x ∉ B := by
            intro x hx
            simp only [List.mem_append, List.mem_singleton] at hx
            rcases hx with (hx | rfl) | hx | hx
            · exact hB x (List.mem_append.mpr (Or.inl hx))
            · exact hB x (by simp)
            · exact hB x (by simp [hx])
            · intro hxB
              have : x ∈ vis := by rw [hvis]; simp [hxB]
              exact ((hfresh_mem x).mp hx).2.2 this
          have hSsub : ∀ x, x ∈ comp ++ u :: rest → x ∈ (comp ++ [u]) ++ (rest ++ fresh) := by
            intro x hx
            simp only [List.mem_append, List.mem_cons, List.mem_singleton] at hx ⊢
            tauto
          have hreach2 : ∀ x ∈ (comp ++ [u]) ++ (rest ++ fresh),
              ReachWithin adj ((comp ++ [u]) ++ (rest ++ fresh)) root x := by
            intro x hx
            simp only [List.mem_append, List.mem_singleton] at hx
            rcases hx with (hx | rfl) | hx | hx
            · exact reachWithin_mono hSsub (hreach x (by simp [hx]))
            · exact reachWithin_mono hSsub (hreach x (by simp))
            · exact reachWithin_mono hSsub (hreach x (by simp [hx]))
            · -- x is a fresh neighbour of u
              have hu : ReachWithin adj ((comp ++ [u]) ++ (rest ++ fresh)) root u :=
                reachWithin_mono hSsub (hreach u (by simp))
              exact Relation.ReflTransGen.tail hu
                ⟨((hfresh_mem x).mp hx).1, by simp, by simp [hx]⟩
          obtain ⟨d, hd1, hd2, hd3, hd4, hd5, hd6, hd7⟩ :=
            ih (rest ++ fresh) (vis ∪ fresh.toFinset) (comp ++ [u]) B
              hfuel2 hvis2 hnd2 hB2 hreach2
          have hlist : (comp ++ [u]) ++ d = comp ++ (u :: d) := by simp
          refine ⟨u :: d, ?_, ?_, ?_, ?_, ?_, ?_, ?_⟩
          · rw [hstep, hd1, hlist]
          · rw [hstep, hd2, hlist]
          · rw [← hlist]; exact hd3
          · rw [← hlist]; exact hd4
          · intro x hx
            rcases List.mem_cons.mp hx with rfl | hx
            · exact Or.inl (by simp)
            · rcases hd5 x hx with hx' | hx'
              · rcases List.mem_append.mp hx' with hx' | hx'
                · exact Or.inl (by simp [hx'])
                · exact Or.inr ((hfresh_mem x).mp hx').2.1
              · exact Or.inr hx'
          · intro x hx
            rcases List.mem_cons.mp hx with rfl | hx
            · simp
            · have hmem := hd6 x (List.mem_append.mpr (Or.inl hx))
              rw [hlist] at hmem
              exact hmem
          · rw [← hlist]; exact hd7


lemma componentsLoopF_zero (adj : ℕ → List ℕ) (N i : ℕ) (vis : Finset ℕ)
    (acc : List (List ℕ)) : componentsLoopF adj N 0 i vis acc = acc := rfl

lemma componentsLoopF_succ (adj : ℕ → List ℕ) (N fuel i : ℕ) (vis : Finset ℕ)
    (acc : List (List ℕ)) :
    componentsLoopF adj N (fuel + 1) i vis acc =
      if i < N then
        if i ∈ vis then componentsLoopF adj N fuel (i + 1) vis acc
        else
          componentsLoopF adj N fuel (i + 1)
            (bfsRun adj N (1 + (Finset.range N \ insert i vis).card)
              [i] (insert i vis) []).2
            (acc ++ [(bfsRun adj N (1 + (Finset.range N \ insert i vis).card)
              [i] (insert i vis) []).1])
      else acc := rfl

lemma componentsLoopF_spec (adj : ℕ → List ℕ) (N : ℕ)
    (hadj : ∀ u, (adj u).Nodup) :
    ∀ (fuel i : ℕ) (vis : Finset ℕ) (acc : List (List ℕ)),
      N ≤ i + fuel →
      vis = acc.flatten.toFinset →
      Finset.range i ⊆ vis →
      acc.flatten.Nodup →
      (∀ x ∈ acc.flatten, x < N) →
      (∀ c ∈ acc, c ≠ [] ∧ ∃ root, ∀ x ∈ c, ReachWithin adj c root x) →
      (componentsLoopF adj N fuel i vis acc).flatten.Nodup ∧
      (componentsLoopF adj N fuel i vis acc).flatten.toFinset = Finset.range N ∪ vis ∧
      (∀ x ∈ (componentsLoopF adj N fuel i vis acc).flatten, x < N) ∧
      (∀ c ∈ componentsLoopF adj N fuel i vis acc,
        c ≠ [] ∧ ∃ root, ∀ x ∈ c, ReachWithin adj c root x) ∧
      ∃ ext, componentsLoopF adj N fuel i vis acc = acc ++ ext := by
  intro fuel
  induction fuel with
  | zero =>
      intro i vis acc hfuel hvis hrange hndacc hlt hcomps
      have hiN : N ≤ i := by omega
      rw [componentsLoopF_zero]
      refine ⟨hndacc, ?_, hlt, hcomps, [], by simp⟩
      rw [← hvis]
      have hsub : Finset.range N ⊆ vis := fun a ha =>
        hrange (Finset.mem_range.mpr (lt_of_lt_of_le (Finset.mem_range.mp ha) hiN))
      exact (Finset.union_eq_right.mpr hsub).symm
  | succ fuel ih =>
      intro i vis acc hfuel hvis hrange hndacc hlt hcomps
      rw [componentsLoopF_succ]
      by_cases hiN : i < N
      · rw [if_pos hiN]
        by_cases hivis : i ∈ vis
        · rw [if_pos hivis]
          refine ih (i + 1) vis acc (by omega) hvis ?_ hndacc hlt hcomps
          intro a ha
          rcases Nat.lt_succ_iff_lt_or_eq.mp (Finset.mem_range.mp ha) with h | h
          · exact hrange (Finset.mem_range.mpr h)
          · exact h ▸ hivis
        · rw [if_neg hivis]
          obtain ⟨d, hd1, hd2, hd3, hd4, hd5, hd6, hd7⟩ :=
            bfsRun_spec adj N i hadj (1 + (Finset.range N \ insert i vis).card)
              [i] (insert i vis) [] vis
              (by simp) (by ext a; simp; tauto) (by simp) (by simpa using hivis)
              (by intro x hx
                  simp only [List.nil_append, List.mem_singleton] at hx
                  subst hx
                  exact Relation.ReflTransGen.refl)
          simp only [List.nil_append] at hd1 hd2 hd3 hd4 hd7
          have hid : i ∈ d := by simpa using hd6 i (by simp)
          have hdlt : ∀ x ∈ d, x < N := by
            intro x hx
            rcases hd5 x hx with hx' | hx'
            · have hxi : x = i := by simpa using hx'
              exact hxi ▸ hiN
            · exact hx'
          obtain ⟨c1, c2, c3, c4, c5⟩ := ih (i + 1)
            (bfsRun adj N (1 + (Finset.range N \ insert i vis).card)
              [i] (insert i vis) []).2
            (acc ++ [(bfsRun adj N (1 + (Finset.range N \ insert i vis).card)
              [i] (insert i vis) []).1])
            (by omega)
            (by rw [hd1, hd2, List.flatten_append, hvis]
                simp only [List.flatten_cons, List.flatten_nil, List.append_nil]
                ext a
                simp)
            (by intro a ha
                rw [hd2]
                rcases Nat.lt_succ_iff_lt_or_eq.mp (Finset.mem_range.mp ha) with h | h
                · exact Finset.mem_union_left _ (hrange (Finset.mem_range.mpr h))
                · subst h
                  exact Finset.mem_union_right _ (List.mem_toFinset.mpr hid))
            (by rw [hd1, List.flatten_append]
                simp only [List.flatten_cons, List.flatten_nil, List.append_nil]
                rw [List.nodup_append]
                refine ⟨hndacc, hd3, fun a ha hb => ?_⟩
                exact hd4 a hb (hvis ▸ List.mem_toFinset.mpr ha))
            (by intro x hx
                rw [hd1, List.flatten_append] at hx
                simp only [List.flatten_cons, List.flatten_nil,
                  List.append_nil] at hx
                rcases List.mem_append.mp hx with hx | hx
                · exact hlt x hx
                · exact hdlt x hx)
            (by intro c hc
                rcases List.mem_append.mp hc with hc | hc
                · exact hcomps c hc
                · have hcd : c = d := by
                    have hcm := List.mem_singleton.mp hc
                    rw [hd1] at hcm
                    exact hcm
                  subst hcd
                  refine ⟨fun h => ?_, i, hd7⟩
                  rw [h] at hid
                  exact List.not_mem_nil i hid)
          refine ⟨c1, ?_, c3, c4, ?_⟩
          · rw [c2, hd2]
            ext a
            simp only [Finset.mem_union, List.mem_toFinset, Finset.mem_range]
            constructor
            · rintro (h | h | h)
              · exact Or.inl h
              · exact Or.inr h
              · exact Or.inl (hdlt a h)
            · rintro (h | h)
              · exact Or.inl h
              · exact Or.inr (Or.inl h)
          · obtain ⟨ext, hext⟩ := c5
            exact ⟨(bfsRun adj N (1 + (Finset.range N \ insert i vis).card)
              [i] (insert i vis) []).1 :: ext, by rw [hext]; simp⟩
      · rw [if_neg hiN]
        refine ⟨hndacc, ?_, hlt, hcomps, [], by simp⟩
        rw [← hvis]
        have hsub : Finset.range N ⊆ vis := fun a ha =>
          hrange (Finset.mem_range.mpr (lt_of_lt_of_le (Finset.mem_range.mp ha)
            (Nat.le_of_not_lt hiN)))
        exact (Finset.union_eq_right.mpr hsub).symm

lemma list_range_toFinset (n : ℕ) : (List.range n).toFinset = Finset.range n := by
  ext a
  simp [List.mem_range, Finset.mem_range]

lemma connectedComponentsIdx_spec (adj : ℕ → List ℕ) (N : ℕ)
    (hadj : ∀ u, (adj u).Nodup) :
    (connectedComponentsIdx adj N).flatten.Perm (List.range N) ∧
    (∀ c ∈ connectedComponentsIdx adj N,
      c ≠ [] ∧ ∃ root, ∀ x ∈ c, ReachWithin adj c root x) := by
  obtain ⟨h1, h2, _h3, h4, _⟩ := componentsLoopF_spec adj N hadj N 0 ∅ []
    (by omega) (by simp) (by simp) (by simp) (by simp) (by simp)
  refine ⟨?_, h4⟩
  refine List.perm_of_nodup_nodup_toFinset_eq h1 (List.nodup_range N) ?_
  rw [list_range_toFinset]
  unfold connectedComponentsIdx
  rw [h2, Finset.union_empty]

lemma map_getD_range {α : Type} (l : List α) (d : α) :
    (List.range l.length).map (fun i => l.getD i d) = l := by
  induction l with
  | nil => simp
  | cons x l ih =>
      rw [List.length_cons, List.range_succ_eq_map, List.map_cons, List.map_map]
      have hfun : ((fun i => (x :: l).getD i d) ∘ Nat.succ) = fun i => l.getD i d :=
        funext fun a => by simp [List.getD_cons_succ]
      rw [hfun, ih]
      rfl

lemma splitCC_flatten_perm {K : Type} [DecidableEq K] (polys : List (Polygon K)) :
    (splitConnectedComponents polys).flatten.Perm polys := by
  by_cases hp : polys.length = 0
  · rw [List.length_eq_zero.mp hp]
    exact List.Perm.refl _
  · unfold splitConnectedComponents
    rw [if_neg hp]
    obtain ⟨hperm, _⟩ := connectedComponentsIdx_spec
      (fun u => (buildAdjacency polys).getD u []) polys.length
      (fun u => (buildAdjacency_good polys).2.1 u)
    rw [← List.map_flatten]
    have hmap := hperm.map (fun u => polys.getD u [])
    rw [map_getD_range] at hmap
    exact hmap

/-- Claim C10: splitConnectedComponents returns the empty component list on an
empty (or null) input without error, and on every input it returns components
in which each input tile appears exactly once (the concatenation of the
components is a permutation of the input tile list). -/
theorem splitConnectedComponents_partition {K : Type} [DecidableEq K] :
    splitConnectedComponents ([] : List (Polygon K)) = [] ∧
    ∀ polys : List (Polygon K),
      (splitConnectedComponents polys).flatten.Perm polys :=
  ⟨rfl, fun polys => splitCC_flatten_perm polys⟩

/-! ### largestConnectedComponent

Its adjacency construction differs from buildAdjacency: an edge map
accumulates the list of tile indices per undirected edge key (stored under
the first orientation seen), and every key with at least two indices links
all pairs. -/

/-- One directed edge of tile idx, processed against the list-valued edge map
of largestConnectedComponent (edges.get(k2).push(idx) when the reverse key
exists, otherwise push under the edge's own key, creating it if needed). -/
def lccAddEdge {K : Type} [DecidableEq K] (st : List ((Pt K × Pt K) × List ℕ))
    (idx : ℕ) (e : Pt K × Pt K) : List ((Pt K × Pt K) × List ℕ) :=
  match mapFind? st (e.2, e.1) with
  | some lst => mapSet st (e.2, e.1) (lst ++ [idx])
  | none =>
      let st1 := if (mapFind? st e).isSome then st else mapSet st e []
      mapSet st1 e ((mapFind? st1 e).getD [] ++ [idx])

/-- The list-valued edge map of largestConnectedComponent. -/
def lccEdges {K : Type} [DecidableEq K] (polys : List (Polygon K)) :
    List ((Pt K × Pt K) × List ℕ) :=
  polys.enum.foldl
    (fun st ip => (polyEdges ip.2).foldl (fun st e => lccAddEdge st ip.1 e) st) []

/-- Link every ordered pair of a shared-edge index list, both directions
(the nested i < j loops of largestConnectedComponent). -/
def linkPairs (adj : List (List ℕ)) : List ℕ → List (List ℕ)
  | [] => adj
  | x :: rest => linkPairs (rest.foldl (fun a y => addAdjBoth a x y) adj) rest

/-- The adjacency table of largestConnectedComponent: all pairs of every edge
list with at least two recorded indices. -/
def lccAdjacency {K : Type} [DecidableEq K] (polys : List (Polygon K)) :
    List (List ℕ) :=
  (lccEdges polys).foldl
    (fun adj kv => if 2 ≤ kv.2.length then linkPairs adj kv.2 else adj)
    (List.replicate polys.length [])

/-- Best-component tracking: a freshly discovered component replaces the
current best only when strictly longer (first maximum wins ties). -/
def bestCompStep (best c : List ℕ) : List ℕ :=
  if best.length < c.length then c else best

/-- Index form of largestConnectedComponent: BFS components over the
all-pairs adjacency, keeping the strictly-longest first-discovered one. -/
def largestConnectedComponentIdx {K : Type} [DecidableEq K]
    (polys : List (Polygon K)) : List ℕ :=
  (connectedComponentsIdx (fun u => (lccAdjacency polys).getD u [])
    polys.length).foldl bestCompStep []

/-- largestConnectedComponent: the tiles of the best component. -/
def largestConnectedComponent {K : Type} [DecidableEq K]
    (polys : List (Polygon K)) : List (Polygon K) :=
  (largestConnectedComponentIdx polys).map (fun u => polys.getD u [])

lemma linkPairs_good {N : ℕ} :
    ∀ (lst : List ℕ) (adj : List (List ℕ)), AdjGood adj N →
      (∀ x ∈ lst, x < N) → AdjGood (linkPairs adj lst) N := by
  intro lst
  induction lst with
  | nil => intro adj h _; exact h
  | cons x rest ih =>
      intro adj h hlt
      have hx : x < N := hlt x (List.mem_cons_self x rest)
      refine ih _ ?_ (fun y hy => hlt y (List.mem_cons_of_mem x hy))
      exact foldl_preserve (P := fun a => AdjGood a N)
        (fun a y => addAdjBoth a x y) rest adj h
        (fun a y hy ha => addAdjBoth_good ha hx (hlt y (List.mem_cons_of_mem x hy)))

lemma lccAddEdge_inv {K : Type} [DecidableEq K] {N : ℕ}
    {st : List ((Pt K × Pt K) × List ℕ)} {idx : ℕ} {e : Pt K × Pt K}
    (h : ∀ kv ∈ st, ∀ x ∈ kv.2, x < N) (hidx : idx < N) :
    ∀ kv ∈ lccAddEdge st idx e, ∀ x ∈ kv.2, x < N := by
  unfold lccAddEdge
  rcases hf : mapFind? st (e.2, e.1) with _ | lst
  · intro kv hkv x hx
    simp only at hkv
    rcases mem_mapSet hkv with hkv | rfl
    · by_cases hf1 : (mapFind? st e).isSome
      · rw [if_pos hf1] at hkv
        exact h kv hkv x hx
      · rw [if_neg hf1] at hkv
        rcases mem_mapSet hkv with hkv | rfl
        · exact h kv hkv x hx
        · exact absurd hx (List.not_mem_nil x)
    · simp only at hx
      rcases List.mem_append.mp hx with hx | hx
      · -- x comes from the looked-up list of the (possibly just created) key
        rcases hg : mapFind? (if (mapFind? st e).isSome then st else mapSet st e [])
            e with _ | lst1
        · rw [hg] at hx
          exact absurd hx (List.not_mem_nil x)
        · rw [hg] at hx
          simp only [Option.getD_some] at hx
          obtain ⟨kv1, hkv1, rfl⟩ := mapFind?_mem hg
          by_cases hf1 : (mapFind? st e).isSome
          · rw [if_pos hf1] at hkv1
            exact h kv1 hkv1 x hx
          · rw [if_neg hf1] at hkv1
            rcases mem_mapSet hkv1 with hkv1 | rfl
            · exact h kv1 hkv1 x hx
            · exact absurd hx (List.not_mem_nil x)
      · rw [List.mem_singleton.mp hx]
        exact hidx
  · intro kv hkv x hx
    simp only at hkv
    rcases mem_mapSet hkv with hkv | rfl
    · exact h kv hkv x hx
    · simp only at hx
      rcases List.mem_append.mp hx with hx | hx
      · obtain ⟨kv1, hkv1, rfl⟩ := mapFind?_mem hf
        exact h kv1 hkv1 x hx
      · rw [List.mem_singleton.mp hx]
        exact hidx

lemma lccEdges_bounded {K : Type} [DecidableEq K] (polys : List (Polygon K)) :
    ∀ kv ∈ lccEdges polys, ∀ x ∈ kv.2, x < polys.length := by
  unfold lccEdges
  refine foldl_preserve
    (P := fun st : List ((Pt K × Pt K) × List ℕ) =>
      ∀ kv ∈ st, ∀ x ∈ kv.2, x < polys.length)
    _ polys.enum [] (by simp) ?_
  intro st ip hip hst
  have hlt : ip.1 < polys.length := by
    rcases ip with ⟨i, p⟩
    exact (List.mem_enum hip).1
  exact foldl_preserve
    (P := fun st : List ((Pt K × Pt K) × List ℕ) =>
      ∀ kv ∈ st, ∀ x ∈ kv.2, x < polys.length)
    _ (polyEdges ip.2) st hst
    (fun st' e _ hst' => lccAddEdge_inv hst' hlt)

lemma lccAdjacency_good {K : Type} [DecidableEq K] (polys : List (Polygon K)) :
    AdjGood (lccAdjacency polys) polys.length := by
  unfold lccAdjacency
  refine foldl_preserve
    (P := fun adj => AdjGood adj polys.length) _ (lccEdges polys) _
    (adjGood_replicate polys.length) ?_
  intro adj kv hkv hadj
  by_cases h2 : 2 ≤ kv.2.length
  · rw [if_pos h2]
    exact linkPairs_good kv.2 adj hadj (lccEdges_bounded polys kv hkv)
  · rw [if_neg h2]
    exact hadj

lemma foldl_bestComp (l : List (List ℕ)) :
    ∀ b : List ℕ,
      (l.foldl bestCompStep b = b ∧ ∀ c ∈ l, c.length ≤ b.length) ∨
      (∃ pre post, l = pre ++ (l.foldl bestCompStep b) :: post ∧
        b.length < (l.foldl bestCompStep b).length ∧
        (∀ c ∈ pre, c.length < (l.foldl bestCompStep b).length) ∧
        (∀ c ∈ post, c.length ≤ (l.foldl bestCompStep b).length)) := by
  induction l with
  | nil => intro b; exact Or.inl ⟨rfl, by simp⟩
  | cons c rest ih =>
      intro b
      have hfold : (c :: rest).foldl bestCompStep b = rest.foldl bestCompStep
          (bestCompStep b c) := rfl
      by_cases hbc : b.length < c.length
      · have hb' : bestCompStep b c = c := if_pos hbc
        rcases ih c with ⟨h1, h2⟩ | ⟨pre, post, heq, hlt, hpre, hpost⟩
        · refine Or.inr ⟨[], rest, ?_, ?_, by simp, ?_⟩
          · rw [hfold, hb', h1]
            simp
          · rw [hfold, hb', h1]
            exact hbc
          · rw [hfold, hb', h1]
            exact h2
        · refine Or.inr ⟨c :: pre, post, ?_, ?_, ?_, ?_⟩
          · rw [hfold, hb']
            rw [List.cons_append]
            exact congrArg (c :: ·) heq
          · rw [hfold, hb']
            exact lt_trans hbc hlt
          · intro c' hc'
            rcases List.mem_cons.mp hc' with rfl | hc'
            · rw [hfold, hb']
              exact hlt
            · rw [hfold, hb']
              exact hpre c' hc'
          · intro c' hc'
            rw [hfold, hb']
            exact hpost c' hc'
      · have hb' : bestCompStep b c = b := if_neg hbc
        rcases ih b with ⟨h1, h2⟩ | ⟨pre, post, heq, hlt, hpre, hpost⟩
        · refine Or.inl ⟨by rw [hfold, hb']; exact h1, ?_⟩
          intro c' hc'
          rcases List.mem_cons.mp hc' with rfl | hc'
          · exact Nat.le_of_not_lt hbc
          · exact h2 c' hc'
        · refine Or.inr ⟨c :: pre, post, ?_, ?_, ?_, ?_⟩
          · rw [hfold, hb', List.cons_append]
            exact congrArg (c :: ·) heq
          · rw [hfold, hb']
            exact hlt
          · intro c' hc'
            rcases List.mem_cons.mp hc' with rfl | hc'
            · rw [hfold, hb']
              exact lt_of_le_of_lt (Nat.le_of_not_lt hbc) hlt
            · rw [hfold, hb']
              exact hpre c' hc'
          · intro c' hc'
            rw [hfold, hb']
            exact hpost c' hc'

/-- Claim C7: largestConnectedComponent returns one of the BFS-discovered
connected components, of maximal tile count, with ties broken in favour of
the first-discovered component (every earlier component is strictly
shorter, every later one is no longer); the returned index set is pairwise
connected under the adjacency relation restricted to that set, and the
returned tiles are exactly that component's tiles. -/
theorem largestConnectedComponent_spec {K : Type} [DecidableEq K]
    (polys : List (Polygon K)) (hne : polys ≠ []) :
    ∃ pre post,
      connectedComponentsIdx (fun u => (lccAdjacency polys).getD u [])
          polys.length
        = pre ++ largestConnectedComponentIdx polys :: post ∧
      (∀ c ∈ pre, c.length < (largestConnectedComponentIdx polys).length) ∧
      (∀ c ∈ post, c.length ≤ (largestConnectedComponentIdx polys).length) ∧
      (∀ x ∈ largestConnectedComponentIdx polys,
        ∀ y ∈ largestConnectedComponentIdx polys,
          ReachWithin (fun u => (lccAdjacency polys).getD u [])
            (largestConnectedComponentIdx polys) x y) ∧
      largestConnectedComponent polys
        = (largestConnectedComponentIdx polys).map (fun u => polys.getD u []) := by
  have hgood := lccAdjacency_good polys
  have hnd : ∀ u, ((lccAdjacency polys).getD u []).Nodup := hgood.2.1
  obtain ⟨hperm, hcomps⟩ := connectedComponentsIdx_spec
    (fun u => (lccAdjacency polys).getD u []) polys.length hnd
  set comps := connectedComponentsIdx
    (fun u => (lccAdjacency polys).getD u []) polys.length with hcompsdef
  have hb : largestConnectedComponentIdx polys = comps.foldl bestCompStep [] := rfl
  rcases foldl_bestComp comps [] with ⟨h1, h2⟩ | ⟨pre, post, heq, _hlt, hpre, hpost⟩
  · -- impossible: the flatten is a permutation of range N with N > 0
    exfalso
    have hN : 0 < polys.length := List.length_pos.mpr hne
    have h0 : (0 : ℕ) ∈ comps.flatten := hperm.mem_iff.mpr
      (List.mem_range.mpr hN)
    obtain ⟨c, hc, hxc⟩ := List.mem_flatten.mp h0
    have := h2 c hc
    have hcne := (hcomps c hc).1
    rcases c with _ | ⟨z, c⟩
    · exact hcne rfl
    · simp at this
  · refine ⟨pre, post, by rw [hb]; exact heq, by rw [hb]; exact hpre,
      by rw [hb]; exact hpost, ?_, rfl⟩
    have hmem : largestConnectedComponentIdx polys ∈ comps := by
      have hself : comps.foldl bestCompStep [] ∈
          pre ++ comps.foldl bestCompStep [] :: post :=
        List.mem_append.mpr (Or.inr (List.mem_cons_self _ _))
      rw [← heq] at hself
      rw [hb]
      exact hself
    obtain ⟨_, root, hroot⟩ := hcomps _ hmem
    have hsym : ∀ p q, q ∈ (fun u => (lccAdjacency polys).getD u []) p →
        p ∈ (fun u => (lccAdjacency polys).getD u []) q := by
      intro p q hq
      exact (hgood.2.2 p q hq).2.2
    intro x hx y hy
    have hxr : ReachWithin (fun u => (lccAdjacency polys).getD u [])
        (largestConnectedComponentIdx polys) x root :=
      reachWithin_symm hsym (hroot x hx)
    exact Relation.ReflTransGen.trans hxr (hroot y hy)

/-! ### Geometry helpers shared by the grower and the rebalancer -/

/-- One step of the d3.polygonCentroid scan: a is the previous vertex, b the
current one; accumulate the cross term and the weighted coordinate sums. -/
def centroidScan {K : Type} [Field K] : List (Pt K) → Pt K → K × K × K
  | [], _ => (0, 0, 0)
  | b :: rest, a =>
      let c := a.1 * b.2 - b.1 * a.2
      let s := centroidScan rest b
      (s.1 + c, s.2.1 + (a.1 + b.1) * c, s.2.2 + (a.2 + b.2) * c)

/-- d3.polygonCentroid: the area-weighted centroid.  The empty polygon (and a
zero-area polygon) divides by zero; the field model returns 0 where
JS floating point returns NaN, a divergence confined to degenerate tiles. -/
def polygonCentroid {K : Type} [Field K] (polygon : List (Pt K)) : Pt K :=
  match polygon.getLast? with
  | none => (0, 0)
  | some pLast =>
      let s := centroidScan polygon pLast
      (s.2.1 / (s.1 * 3), s.2.2 / (s.1 * 3))

/-- Nearest-centre search: best index so far and its squared distance, the
distance starting at Infinity (modelled by none) and updated on strict
decrease, so the first minimiser wins. -/
def nearestCenterIdx {K : Type} [LinearOrderedField K] (c : Pt K)
    (centers : List (Pt K)) : ℕ :=
  (centers.enum.foldl (fun st ic =>
    let d := (c.1 - ic.2.1) ^ 2 + (c.2 - ic.2.2) ^ 2
    match st.2 with
    | none => (ic.1, some d)
    | some bd => if d < bd then (ic.1, some d) else st)
    ((0 : ℕ), (none : Option K))).1

/-- Centroid of a group: d3.polygonCentroid of the flattened vertex list. -/
def centroidOfGroup {K : Type} [Field K] (g : List (Polygon K)) : Pt K :=
  polygonCentroid g.flatten

/-- Push a tile onto group g (groups[g].push(poly)). -/
def pushAt {α : Type} (gs : List (List α)) (g : ℕ) (x : α) : List (List α) :=
  gs.set g (gs.getD g [] ++ [x])

/-! ### growConnectedGroups -/

/-- The mutable state of the multi-source flood fill: the per-tile assignment
(none models -1) and the per-group frontier sets. -/
structure GrowState where
  assign : List (Option ℕ)
  fronts : List (List ℕ)

/-- assign[idx] === -1 in JS: out-of-range reads are undefined, which fails
the test, so the out-of-range default is an assigned marker. -/
def unassigned (asg : List (Option ℕ)) (i : ℕ) : Bool :=
  (asg.getD i (some 0)).isNone

/-- Process one frontier tile of group g: claim it when unassigned (recording
progress) and add its currently unassigned neighbours to the group's
frontier. -/
def growClaimTile (idxAdj : List (List ℕ)) (g : ℕ) (stp : GrowState × Bool)
    (idx : ℕ) : GrowState × Bool :=
  let st := stp.1
  let cl := unassigned st.assign idx
  let asg2 := if cl then st.assign.set idx (some g) else st.assign
  let fr2 := (idxAdj.getD idx []).foldl
      (fun fr nb => if unassigned asg2 nb then insertOnce fr nb else fr)
      (st.fronts.getD g [])
  (⟨asg2, st.fronts.set g fr2⟩, stp.2 || cl)

/-- One group's turn: snapshot the frontier, clear it, process every
snapshot tile in order. -/
def growPassGroup (idxAdj : List (List ℕ)) (stp : GrowState × Bool) (g : ℕ) :
    GrowState × Bool :=
  let st := stp.1
  let frontier := st.fronts.getD g []
  frontier.foldl (growClaimTile idxAdj g) (⟨st.assign, st.fronts.set g []⟩, stp.2)

/-- One full round-robin pass over all k groups, with its progress flag. -/
def growPass (idxAdj : List (List ℕ)) (k : ℕ) (st : GrowState) :
    GrowState × Bool :=
  (List.range k).foldl (growPassGroup idxAdj) (st, false)

/-- Number of still-unassigned tiles; each progressing pass decreases it. -/
def countNone (asg : List (Option ℕ)) : ℕ := (asg.filter Option.isNone).length

/-- while (progress) loop of the flood fill, fuelled. -/
def growLoopF (idxAdj : List (List ℕ)) (k : ℕ) : ℕ → GrowState → GrowState
  | 0, st => st
  | fuel + 1, st =>
      let p := growPass idxAdj k st
      if p.2 then growLoopF idxAdj k fuel p.1 else p.1

/-- The flood-fill loop with sufficient fuel: a progressing pass claims at
least one tile, so countNone + 1 passes reach the no-progress exit. -/
def growLoop (idxAdj : List (List ℕ)) (k : ℕ) (st : GrowState) : GrowState :=
  growLoopF idxAdj k (countNone st.assign + 1) st

/-- Build the groups array: tile i goes to groups[assign[i]], or to group 0
as the fallback for an unassigned tile. -/
def buildGroups {K : Type} :
    List (Polygon K) → List (Option ℕ) → List (List (Polygon K)) →
      List (List (Polygon K))
  | [], _, gs => gs
  | p :: ps, asg, gs =>
      buildGroups ps asg.tail (pushAt gs ((asg.headD none).getD 0) p)

/-- Connectivity prune, one group: keep the group itself when it has at most
one component, otherwise stable-sort the components by descending length
(as Array.prototype.sort does), keep the first and pool the rest. -/
def pruneStep {K : Type} [DecidableEq K]
    (acc : List (List (Polygon K)) × List (Polygon K)) (g : List (Polygon K)) :
    List (List (Polygon K)) × List (Polygon K) :=
  let comps := splitConnectedComponents g
  if comps.length ≤ 1 then (acc.1 ++ [g], acc.2)
  else
    let sorted := comps.mergeSort (fun a b => decide (b.length ≤ a.length))
    (acc.1 ++ [sorted.headD []], acc.2 ++ (sorted.drop 1).flatten)

/-- Connectivity prune: per group, keep the largest connected component
(first on ties) and send all other fragments to the pool. -/
def pruneGroups {K : Type} [DecidableEq K] (groups : List (List (Polygon K))) :
    List (List (Polygon K)) × List (Polygon K) :=
  groups.foldl pruneStep ([], [])

/-- Result record of growConnectedGroups. -/
structure GrowResult (K : Type) where
  groups : List (List (Polygon K))
  pool : List (Polygon K)
  assign : List (Option ℕ)
  idxAdj : List (List ℕ)

/-- growConnectedGroups(polys, k, minTiles): seed nearest-centre queues, grow
by multi-source flood fill, build the k groups, prune to the largest
component per group.  The centres list models the result of the randomized
generateCentersInPolygons call; minTiles is accepted and, as in the source,
never used. -/
def growConnectedGroups {K : Type} [LinearOrderedField K] [DecidableEq K]
    (polys : List (Polygon K)) (k : ℕ) (minTiles : ℕ) (centers : List (Pt K)) :
    GrowResult K :=
  let idxAdj := buildAdjacency polys
  let N := polys.length
  let queues := (List.range N).foldl (fun qs i =>
      pushAt qs (nearestCenterIdx (polygonCentroid (polys.getD i [])) centers) i)
    (List.replicate k [])
  let st := growLoop idxAdj k ⟨List.replicate N none, queues⟩
  let groups := buildGroups polys st.assign (List.replicate k [])
  let pruned := pruneGroups groups
  ⟨pruned.1, pruned.2, st.assign, idxAdj⟩

/-! ### rebalanceBoundaries -/

/-- Geometric shared-edge test between two tiles (same or reversed endpoint
order). -/
def shareEdge {K : Type} [DecidableEq K] (p1 p2 : Polygon K) : Bool :=
  (polyEdges p1).any (fun e1 => (polyEdges p2).any (fun e2 =>
    decide ((e1.1 = e2.1 ∧ e1.2 = e2.2) ∨ (e1.1 = e2.2 ∧ e1.2 = e2.1))))

/-- A donor stays connected after removing a tile: the remainder is nonempty
and splits into exactly one connected component. -/
def staysConnectedAfterRemoval {K : Type} [DecidableEq K]
    (groupTiles : List (Polygon K)) (removePoly : Polygon K) : Bool :=
  let remain := groupTiles.filter (fun p => p ≠ removePoly)
  if remain.length = 0 then false
  else decide ((splitConnectedComponents remain).length = 1)

/-- The donor search of the boundary exchange: scan donor groups (size
strictly above minTiles, in index order) and inside each scan its tiles in
order for the first tile that touches the receiver gi and whose removal
keeps the donor connected. -/
def findDonorTile {K : Type} [DecidableEq K] (groups : List (List (Polygon K)))
    (minTiles gi : ℕ) : Option (ℕ × Polygon K) :=
  let donors := (List.range groups.length).filter
    (fun gj => decide (gj ≠ gi) && decide (minTiles < (groups.getD gj []).length))
  donors.findSome? (fun gj =>
    ((groups.getD gj []).find? (fun t =>
      (groups.getD gi []).any (fun r => shareEdge t r) &&
        staysConnectedAfterRemoval (groups.getD gj []) t)).map (fun t => (gj, t)))

/-- Move tile t from donor gj to receiver gi: filter it out of the donor by
identity and push it onto the receiver. -/
def applyTransfer {K : Type} [DecidableEq K] (groups : List (List (Polygon K)))
    (gi gj : ℕ) (t : Polygon K) : List (List (Polygon K)) :=
  let g1 := groups.set gj ((groups.getD gj []).filter (fun p => p ≠ t))
  g1.set gi (g1.getD gi [] ++ [t])

/-- One deficient group's turn in a round: perform the first qualifying
transfer, if any. -/
def rebalanceStep {K : Type} [DecidableEq K] (minTiles : ℕ)
    (groups : List (List (Polygon K))) (gi : ℕ) : List (List (Polygon K)) :=
  match findDonorTile groups minTiles gi with
  | none => groups
  | some (gj, t) => applyTransfer groups gi gj t

/-- need.splice(need.indexOf(gi), 1): drop the first occurrence. -/
def removeFirst (l : List ℕ) (x : ℕ) : List ℕ := l.erase x

/-- The for..of iteration over the need array while it is being spliced:
the iterator index advances by one per step against the mutated array,
exactly as the JS array iterator does.  The fuel need.length + 1 is
sufficient because need.length - ni strictly decreases. -/
def needPassF {K : Type} [DecidableEq K] (minTiles : ℕ) :
    ℕ → ℕ → List ℕ → List (List (Polygon K)) → List ℕ × List (List (Polygon K))
  | 0, _, need, groups => (need, groups)
  | fuel + 1, ni, need, groups =>
      if ni < need.length then
        let gi := need.getD ni 0
        let groups2 := rebalanceStep minTiles groups gi
        let need2 := if minTiles ≤ (groups2.getD gi []).length
                     then removeFirst need gi else need
        needPassF minTiles fuel (ni + 1) need2 groups2
      else (need, groups)

/-- The boundary-exchange rounds: at most 20, stopping early once no group
is deficient. -/
def rebalanceRoundsF {K : Type} [DecidableEq K] (minTiles : ℕ) :
    ℕ → List ℕ → List (List (Polygon K)) → List (List (Polygon K))
  | 0, _, groups => groups
  | r + 1, need, groups =>
      if need.length = 0 then groups
      else
        let p := needPassF minTiles (need.length + 1) 0 need groups
        rebalanceRoundsF minTiles r p.1 p.2

/-- rebalanceBoundaries(groups, pool, idxAdj, minTiles, targetCounts):
assign every pooled tile to the nearest group by the centroids computed
before the assignment starts, then run the boundary-exchange rounds.
idxAdj and targetCounts are accepted and, as in the source, never used
(the dead groupNeighbors scan is omitted: its loop body is empty). -/
def rebalanceBoundaries {K : Type} [LinearOrderedField K] [DecidableEq K]
    (groups : List (List (Polygon K))) (pool : List (Polygon K))
    (idxAdj : List (List ℕ)) (minTiles targetCounts : ℕ) :
    List (List (Polygon K)) :=
  let k := groups.length
  let groupCenters := groups.map centroidOfGroup
  let groups2 := pool.foldl (fun gs poly =>
      pushAt gs (nearestCenterIdx (polygonCentroid poly) groupCenters) poly) groups
  let need := (List.range k).filter
    (fun i => decide ((groups2.getD i []).length < minTiles))
  rebalanceRoundsF minTiles 20 need groups2

/-! ### Length and multiset accounting for the rebalancer -/

lemma pushAt_length {α : Type} (gs : List (List α)) (g : ℕ) (x : α) :
    (pushAt gs g x).length = gs.length := List.length_set gs g _

lemma applyTransfer_length {K : Type} [DecidableEq K]
    (groups : List (List (Polygon K))) (gi gj : ℕ) (t : Polygon K) :
    (applyTransfer groups gi gj t).length = groups.length := by
  unfold applyTransfer
  simp

lemma rebalanceStep_length {K : Type} [DecidableEq K] (minTiles : ℕ)
    (groups : List (List (Polygon K))) (gi : ℕ) :
    (rebalanceStep minTiles groups gi).length = groups.length := by
  unfold rebalanceStep
  rcases findDonorTile groups minTiles gi with _ | ⟨gj, t⟩
  · rfl
  · exact applyTransfer_length groups gi gj t

lemma needPassF_length {K : Type} [DecidableEq K] (minTiles : ℕ) :
    ∀ (fuel ni : ℕ) (need : List ℕ) (groups : List (List (Polygon K))),
      (needPassF minTiles fuel ni need groups).2.length = groups.length := by
  intro fuel
  induction fuel with
  | zero => intro ni need groups; rfl
  | succ fuel ih =>
      intro ni need groups
      show (if ni < need.length then _ else (need, groups)).2.length = _
      by_cases h : ni < need.length
      · rw [if_pos h]
        rw [ih]
        exact rebalanceStep_length minTiles groups (need.getD ni 0)
      · rw [if_neg h]

lemma rebalanceRoundsF_length {K : Type} [DecidableEq K] (minTiles : ℕ) :
    ∀ (r : ℕ) (need : List ℕ) (groups : List (List (Polygon K))),
      (rebalanceRoundsF minTiles r need groups).length = groups.length := by
  intro r
  induction r with
  | zero => intro need groups; rfl
  | succ r ih =>
      intro need groups
      show (if need.length = 0 then groups else _).length = _
      by_cases h : need.length = 0
      · rw [if_pos h]
      · rw [if_neg h, ih, needPassF_length]

lemma foldl_pushAt_length {K : Type} (pool : List (Polygon K))
    (f : Polygon K → ℕ) :
    ∀ gs : List (List (Polygon K)),
      (pool.foldl (fun gs poly => pushAt gs (f poly) poly) gs).length = gs.length := by
  induction pool with
  | nil => intro gs; rfl
  | cons p pool ih =>
      intro gs
      show (pool.foldl _ (pushAt gs (f p) p)).length = _
      rw [ih, pushAt_length]

/-- Claim C2 (core): rebalanceBoundaries returns exactly as many groups as it
was given; no step of the algorithm adds or removes a group. -/
lemma rebalanceBoundaries_length {K : Type} [LinearOrderedField K] [DecidableEq K]
    (groups : List (List (Polygon K))) (pool : List (Polygon K))
    (idxAdj : List (List ℕ)) (minTiles targetCounts : ℕ) :
    (rebalanceBoundaries groups pool idxAdj minTiles targetCounts).length
      = groups.length := by
  unfold rebalanceBoundaries
  rw [rebalanceRoundsF_length, foldl_pushAt_length]

lemma flatten_pushAt_perm {α : Type} :
    ∀ (gs : List (List α)) (g : ℕ) (x : α), g < gs.length →
      (pushAt gs g x).flatten.Perm (gs.flatten ++ [x]) := by
  intro gs
  induction gs with
  | nil => intro g x h; exact absurd h (by simp)
  | cons a gs ih =>
      intro g x h
      match g with
      | 0 =>
          show ((a ++ [x]) :: gs).flatten.Perm ((a :: gs).flatten ++ [x])
          simp only [List.flatten_cons]
          rw [List.append_assoc, List.append_assoc]
          exact List.Perm.append_left a (List.perm_append_singleton x gs.flatten).symm
      | g + 1 =>
          show (a :: gs.set g _).flatten.Perm ((a :: gs).flatten ++ [x])
          simp only [List.flatten_cons]
          have hg : g < gs.length := by simpa using h
          rw [List.append_assoc]
          exact List.Perm.append_left a (ih g x hg)


lemma multiset_flatten_set {α : Type} :
    ∀ (gs : List (List α)) (i : ℕ) (x : List α), i < gs.length →
      ((gs.set i x).flatten : Multiset α) + ((gs.getD i [] : List α) : Multiset α)
        = (gs.flatten : Multiset α) + (x : Multiset α) := by
  intro gs
  induction gs with
  | nil => intro i x h; exact absurd h (by simp)
  | cons a gs ih =>
      intro i x h
      match i with
      | 0 =>
          show ((x :: gs).flatten : Multiset α) + (a : Multiset α) = _
          simp only [List.flatten_cons]
          rw [← Multiset.coe_add, ← Multiset.coe_add]
          calc ((x : Multiset α) + (gs.flatten : Multiset α)) + (a : Multiset α)
              = (a : Multiset α) + ((x : Multiset α) + (gs.flatten : Multiset α)) :=
                add_comm _ _
            _ = (a : Multiset α) + ((gs.flatten : Multiset α) + (x : Multiset α)) := by
                rw [add_comm (x : Multiset α) (gs.flatten : Multiset α)]
            _ = ((a : Multiset α) + (gs.flatten : Multiset α)) + (x : Multiset α) :=
                (add_assoc _ _ _).symm
      | i + 1 =>
          show ((a :: gs.set i x).flatten : Multiset α) + _ = _
          simp only [List.flatten_cons]
          have hg : i < gs.length := by simpa using h
          have hd : (a :: gs).getD (i + 1) [] = gs.getD i [] := rfl
          rw [hd, ← Multiset.coe_add, ← Multiset.coe_add]
          have hih := ih i x hg
          calc ((a : Multiset α) + ((gs.set i x).flatten : Multiset α))
                + ((gs.getD i [] : List α) : Multiset α)
              = (a : Multiset α) + (((gs.set i x).flatten : Multiset α)
                + ((gs.getD i [] : List α) : Multiset α)) := by rw [add_assoc]
            _ = (a : Multiset α) + ((gs.flatten : Multiset α) + (x : Multiset α)) := by
                rw [hih]
            _ = ((a : Multiset α) + (gs.flatten : Multiset α)) + (x : Multiset α) := by
                rw [add_assoc]

lemma filter_ne_perm {α : Type} [DecidableEq α] :
    ∀ (l : List α), l.Nodup → ∀ t ∈ l,
      (t :: l.filter (fun p => p ≠ t)).Perm l := by
  intro l
  induction l with
  | nil => intro _ t ht; exact absurd ht (List.not_mem_nil t)
  | cons a l ih =>
      intro hnd t ht
      by_cases hat : a = t
      · subst hat
        have hnotin : a ∉ l := (List.nodup_cons.mp hnd).1
        have hfa : (a :: l).filter (fun p => p ≠ a) = l.filter (fun p => p ≠ a) := by
          simp
        have hfl : l.filter (fun p => p ≠ a) = l := by
          rw [List.filter_eq_self]
          intro b hb
          simp only [decide_eq_true_eq]
          intro hba
          exact hnotin (hba ▸ hb)
        rw [hfa, hfl]
      · have htl : t ∈ l := by
          rcases List.mem_cons.mp ht with h | h
          · exact absurd h.symm hat
          · exact h
        have hfa : (a :: l).filter (fun p => p ≠ t) = a :: l.filter (fun p => p ≠ t) := by
          simp [hat]
        rw [hfa]
        have hswap : (t :: a :: l.filter (fun p => p ≠ t)).Perm
            (a :: t :: l.filter (fun p => p ≠ t)) := List.Perm.swap a t _
        refine hswap.trans ?_
        exact List.Perm.cons a (ih (List.nodup_cons.mp hnd).2 t htl)

lemma getD_mem_of_lt {α : Type} {gs : List (List α)} {i : ℕ} (h : i < gs.length) :
    gs.getD i [] ∈ gs := by
  rw [List.getD_eq_getElem?_getD, List.getElem?_eq_getElem h]
  exact List.getElem_mem h

lemma applyTransfer_perm {K : Type} [DecidableEq K]
    {groups : List (List (Polygon K))} {gi gj : ℕ} {t : Polygon K}
    (hij : gi ≠ gj) (hgi : gi < groups.length) (hgj : gj < groups.length)
    (ht : t ∈ groups.getD gj []) (hnd : groups.flatten.Nodup) :
    (applyTransfer groups gi gj t).flatten.Perm groups.flatten := by
  have hndj : (groups.getD gj []).Nodup :=
    List.Sublist.nodup (List.sublist_flatten_of_mem (getD_mem_of_lt hgj)) hnd
  unfold applyTransfer
  set fj := (groups.getD gj []).filter (fun p => p ≠ t) with hfj
  set g1 := groups.set gj fj with hg1
  have hgi1 : gi < g1.length := by rw [hg1]; simpa using hgi
  have e1 : (g1.flatten : Multiset (Polygon K)) + ((groups.getD gj [] : List _) : Multiset _)
      = (groups.flatten : Multiset _) + (fj : Multiset _) :=
    multiset_flatten_set groups gj fj hgj
  have e2 : ((groups.getD gj [] : List (Polygon K)) : Multiset (Polygon K))
      = (fj : Multiset _) + ({t} : Multiset _) := by
    have hp := filter_ne_perm (groups.getD gj []) hndj t ht
    rw [← Multiset.coe_eq_coe] at hp
    rw [← hp, ← Multiset.cons_coe, ← Multiset.singleton_add]
    exact add_comm _ _
  have e5 : (g1.flatten : Multiset (Polygon K)) + ({t} : Multiset _)
      = (groups.flatten : Multiset _) := by
    rw [e2] at e1
    rw [← add_assoc, add_right_comm (g1.flatten : Multiset (Polygon K))
      (fj : Multiset (Polygon K)) ({t} : Multiset (Polygon K))] at e1
    exact add_right_cancel e1
  have e3 := multiset_flatten_set g1 gi (g1.getD gi [] ++ [t]) hgi1
  rw [← Multiset.coe_add, Multiset.coe_singleton] at e3
  rw [← add_assoc, add_right_comm (g1.flatten : Multiset (Polygon K))
    ((g1.getD gi [] : List (Polygon K)) : Multiset (Polygon K))
    ({t} : Multiset (Polygon K))] at e3
  have e6 := add_right_cancel e3
  rw [← Multiset.coe_eq_coe]
  exact e6.trans e5

/-! ### Donor search: specification (claim C3 core) -/

lemma findDonorTile_spec {K : Type} [DecidableEq K]
    {groups : List (List (Polygon K))} {minTiles gi gj : ℕ} {t : Polygon K}
    (h : findDonorTile groups minTiles gi = some (gj, t)) :
    gj < groups.length ∧ gj ≠ gi ∧ minTiles < (groups.getD gj []).length ∧
    t ∈ groups.getD gj [] ∧
    (∃ r ∈ groups.getD gi [], shareEdge t r = true) ∧
    staysConnectedAfterRemoval (groups.getD gj []) t = true := by
  unfold findDonorTile at h
  obtain ⟨gj', hgj', hf⟩ := List.exists_of_findSome?_eq_some h
  rcases hfind : (groups.getD gj' []).find? (fun t =>
      (groups.getD gi []).any (fun r => shareEdge t r) &&
        staysConnectedAfterRemoval (groups.getD gj' []) t) with _ | t'
  · rw [hfind] at hf
    simp at hf
  · rw [hfind] at hf
    have hpair : (gj', t') = (gj, t) := by simpa using hf
    have hgjeq : gj' = gj := congrArg Prod.fst hpair
    have hteq : t' = t := congrArg Prod.snd hpair
    rw [hgjeq] at hgj' hfind
    rw [hteq] at hfind
    have hdon := List.mem_filter.mp hgj'
    have hran : gj < groups.length := List.mem_range.mp hdon.1
    have hcond := hdon.2
    simp only [Bool.and_eq_true, decide_eq_true_eq] at hcond
    have hpred := List.find?_some hfind
    simp only [Bool.and_eq_true] at hpred
    obtain ⟨hany, hstays⟩ := hpred
    refine ⟨hran, hcond.1, hcond.2, List.mem_of_find?_eq_some hfind, ?_, hstays⟩
    obtain ⟨r, hr, hre⟩ := List.any_eq_true.mp hany
    exact ⟨r, hr, hre⟩

lemma rebalanceStep_perm {K : Type} [DecidableEq K] {minTiles : ℕ}
    {groups : List (List (Polygon K))} {gi : ℕ}
    (hgi : gi < groups.length) (hnd : groups.flatten.Nodup) :
    (rebalanceStep minTiles groups gi).flatten.Perm groups.flatten := by
  unfold rebalanceStep
  rcases hfd : findDonorTile groups minTiles gi with _ | ⟨gj, t⟩
  · exact List.Perm.refl _
  · obtain ⟨h1, h2, _, h4, _, _⟩ := findDonorTile_spec hfd
    exact applyTransfer_perm (fun he => h2 he.symm) hgi h1 h4 hnd

lemma getD_mem_of_lt' {α : Type} {l : List α} {i : ℕ} (d : α) (h : i < l.length) :
    l.getD i d ∈ l := by
  rw [List.getD_eq_getElem?_getD, List.getElem?_eq_getElem h]
  exact List.getElem_mem h

lemma needPassF_perm {K : Type} [DecidableEq K] (minTiles : ℕ) :
    ∀ (fuel ni : ℕ) (need : List ℕ) (groups : List (List (Polygon K))),
      (∀ x ∈ need, x < groups.length) → groups.flatten.Nodup →
      (needPassF minTiles fuel ni need groups).2.flatten.Perm groups.flatten ∧
      (∀ x ∈ (needPassF minTiles fuel ni need groups).1, x < groups.length) := by
  intro fuel
  induction fuel with
  | zero => intro ni need groups hb hnd; exact ⟨List.Perm.refl _, hb⟩
  | succ fuel ih =>
      intro ni need groups hb hnd
      have heq : needPassF minTiles (fuel + 1) ni need groups =
          if ni < need.length then
            needPassF minTiles fuel (ni + 1)
              (if minTiles ≤ ((rebalanceStep minTiles groups
                  (need.getD ni 0)).getD (need.getD ni 0) []).length
               then removeFirst need (need.getD ni 0) else need)
              (rebalanceStep minTiles groups (need.getD ni 0))
          else (need, groups) := rfl
      rw [heq]
      by_cases h : ni < need.length
      · rw [if_pos h]
        have hgi : need.getD ni 0 < groups.length := hb _ (getD_mem_of_lt' 0 h)
        have hstep : (rebalanceStep minTiles groups
            (need.getD ni 0)).flatten.Perm groups.flatten :=
          rebalanceStep_perm hgi hnd
        have hlen : (rebalanceStep minTiles groups (need.getD ni 0)).length
            = groups.length := rebalanceStep_length _ _ _
        have hnd2 : (rebalanceStep minTiles groups (need.getD ni 0)).flatten.Nodup :=
          (hstep.nodup_iff).mpr hnd
        have hb2 : ∀ x ∈ (if minTiles ≤
              ((rebalanceStep minTiles groups (need.getD ni 0)).getD (need.getD ni 0) []).length
            then removeFirst need (need.getD ni 0) else need),
            x < (rebalanceStep minTiles groups (need.getD ni 0)).length := by
          intro x hx
          rw [hlen]
          by_cases hc : minTiles ≤
              ((rebalanceStep minTiles groups (need.getD ni 0)).getD (need.getD ni 0) []).length
          · rw [if_pos hc] at hx
            exact hb x (List.Sublist.mem hx (List.erase_sublist _ _))
          · rw [if_neg hc] at hx
            exact hb x hx
        obtain ⟨ihp, ihb⟩ := ih (ni + 1) _ _ hb2 hnd2
        refine ⟨ihp.trans hstep, ?_⟩
        intro x hx
        have := ihb x hx
        rw [hlen] at this
        exact this
      · rw [if_neg h]
        exact ⟨List.Perm.refl _, hb⟩

lemma rebalanceRoundsF_perm {K : Type} [DecidableEq K] (minTiles : ℕ) :
    ∀ (r : ℕ) (need : List ℕ) (groups : List (List (Polygon K))),
      (∀ x ∈ need, x < groups.length) → groups.flatten.Nodup →
      (rebalanceRoundsF minTiles r need groups).flatten.Perm groups.flatten := by
  intro r
  induction r with
  | zero => intro need groups _ _; exact List.Perm.refl _
  | succ r ih =>
      intro need groups hb hnd
      have heq : rebalanceRoundsF minTiles (r + 1) need groups =
          if need.length = 0 then groups
          else rebalanceRoundsF minTiles r
            (needPassF minTiles (need.length + 1) 0 need groups).1
            (needPassF minTiles (need.length + 1) 0 need groups).2 := rfl
      rw [heq]
      by_cases h : need.length = 0
      · rw [if_pos h]
      · rw [if_neg h]
        obtain ⟨hp, hb2⟩ := needPassF_perm minTiles (need.length + 1) 0 need groups hb hnd
        have hlen := needPassF_length (K := K) minTiles (need.length + 1) 0 need groups
        have hnd2 := (hp.nodup_iff).mpr hnd
        have hb2' : ∀ x ∈ (needPassF minTiles (need.length + 1) 0 need groups).1,
            x < (needPassF minTiles (need.length + 1) 0 need groups).2.length := by
          intro x hx
          rw [hlen]
          exact hb2 x hx
        exact (ih _ _ hb2' hnd2).trans hp

lemma nearestCenterIdx_lt {K : Type} [LinearOrderedField K] (c : Pt K)
    (centers : List (Pt K)) (h : 0 < centers.length) :
    nearestCenterIdx c centers < centers.length := by
  unfold nearestCenterIdx
  have hinv := foldl_preserve
    (P := fun st : ℕ × Option K => st.1 < centers.length ∨ st.1 = 0)
    (fun st ic =>
      let d := (c.1 - ic.2.1) ^ 2 + (c.2 - ic.2.2) ^ 2
      match st.2 with
      | none => (ic.1, some d)
      | some bd => if d < bd then (ic.1, some d) else st)
    centers.enum ((0 : ℕ), (none : Option K)) (Or.inr rfl) ?_
  · rcases hinv with h' | h'
    · exact h'
    · rw [h']
      exact h
  · intro st ic hic hst
    rcases ic with ⟨i, p⟩
    have hi : i < centers.length := (List.mem_enum hic).1
    rcases st with ⟨b, ob⟩
    rcases ob with _ | bd
    · exact Or.inl hi
    · dsimp only
      by_cases hd : (c.1 - p.1) ^ 2 + (c.2 - p.2) ^ 2 < bd
      · rw [if_pos hd]
        exact Or.inl hi
      · rw [if_neg hd]
        exact hst

lemma stepA_perm {K : Type} [LinearOrderedField K] (f : Polygon K → ℕ) :
    ∀ (pool : List (Polygon K)) (gs : List (List (Polygon K))),
      (∀ p : Polygon K, f p < gs.length) →
      (pool.foldl (fun gs poly => pushAt gs (f poly) poly) gs).flatten.Perm
        (gs.flatten ++ pool) := by
  intro pool
  induction pool with
  | nil => intro gs _; simp
  | cons p pool ih =>
      intro gs hf
      show (pool.foldl _ (pushAt gs (f p) p)).flatten.Perm _
      have hf2 : ∀ q : Polygon K, f q < (pushAt gs (f p) p).length := by
        intro q
        rw [pushAt_length]
        exact hf q
      have hih := ih (pushAt gs (f p) p) hf2
      have hpush := flatten_pushAt_perm gs (f p) p (hf p)
      refine hih.trans ?_
      have := hpush.append_right pool
      refine this.trans ?_
      rw [List.append_assoc]
      exact List.Perm.refl _

lemma rebalanceBoundaries_perm {K : Type} [LinearOrderedField K] [DecidableEq K]
    (groups : List (List (Polygon K))) (pool : List (Polygon K))
    (idxAdj : List (List ℕ)) (minTiles targetCounts : ℕ)
    (hk : 0 < groups.length) (hnd : (groups.flatten ++ pool).Nodup) :
    (rebalanceBoundaries groups pool idxAdj minTiles targetCounts).flatten.Perm
      (groups.flatten ++ pool) := by
  unfold rebalanceBoundaries
  have hf : ∀ p : Polygon K,
      nearestCenterIdx (polygonCentroid p) (groups.map centroidOfGroup)
        < groups.length := by
    intro p
    have := nearestCenterIdx_lt (polygonCentroid p) (groups.map centroidOfGroup)
      (by simpa using hk)
    simpa using this
  have hA := stepA_perm
    (fun poly => nearestCenterIdx (polygonCentroid poly) (groups.map centroidOfGroup))
    pool groups hf
  have hlenA : (pool.foldl (fun gs poly => pushAt gs
      (nearestCenterIdx (polygonCentroid poly) (groups.map centroidOfGroup)) poly)
      groups).length = groups.length := foldl_pushAt_length pool _ groups
  have hndA := (hA.nodup_iff).mpr hnd
  have hb : ∀ x ∈ (List.range groups.length).filter
      (fun i => decide (((pool.foldl (fun gs poly => pushAt gs
        (nearestCenterIdx (polygonCentroid poly) (groups.map centroidOfGroup)) poly)
        groups).getD i []).length < minTiles)),
      x < (pool.foldl (fun gs poly => pushAt gs
        (nearestCenterIdx (polygonCentroid poly) (groups.map centroidOfGroup)) poly)
        groups).length := by
    intro x hx
    rw [hlenA]
    exact List.mem_range.mp (List.mem_filter.mp hx).1
  exact (rebalanceRoundsF_perm minTiles 20 _ _ hb hndA).trans hA

/-! ### Flood-fill invariants and group accounting -/

/-- Every recorded assignment names one of the k groups. -/
def AssignOk (k : ℕ) (asg : List (Option ℕ)) : Prop :=
  ∀ o ∈ asg, ∀ g, o = some g → g < k

lemma growClaimTile_assignOk {idxAdj : List (List ℕ)} {k g : ℕ} (hg : g < k)
    (stp : GrowState × Bool) (idx : ℕ) (h : AssignOk k stp.1.assign) :
    AssignOk k (growClaimTile idxAdj g stp idx).1.assign := by
  unfold growClaimTile
  dsimp only
  by_cases hcl : unassigned stp.1.assign idx
  · rw [if_pos hcl]
    intro o ho g' hog
    rcases List.mem_or_eq_of_mem_set ho with ho | rfl
    · exact h o ho g' hog
    · rw [Option.some.injEq] at hog
      rw [← hog]
      exact hg
  · rw [if_neg hcl]
    exact h

lemma growPassGroup_assignOk {idxAdj : List (List ℕ)} {k : ℕ}
    (stp : GrowState × Bool) {g : ℕ} (hg : g < k) (h : AssignOk k stp.1.assign) :
    AssignOk k (growPassGroup idxAdj stp g).1.assign := by
  unfold growPassGroup
  exact foldl_preserve
    (P := fun stp : GrowState × Bool => AssignOk k stp.1.assign)
    (growClaimTile idxAdj g) (stp.1.fronts.getD g []) _
    h (fun stp' idx _ h' => growClaimTile_assignOk hg stp' idx h')

lemma growPass_assignOk {idxAdj : List (List ℕ)} {k : ℕ} (st : GrowState)
    (h : AssignOk k st.assign) : AssignOk k (growPass idxAdj k st).1.assign := by
  unfold growPass
  exact foldl_preserve
    (P := fun stp : GrowState × Bool => AssignOk k stp.1.assign)
    (growPassGroup idxAdj) (List.range k) (st, false)
    h (fun stp g hgmem h' => growPassGroup_assignOk stp (List.mem_range.mp hgmem) h')

lemma growLoopF_assignOk {idxAdj : List (List ℕ)} {k : ℕ} :
    ∀ (fuel : ℕ) (st : GrowState), AssignOk k st.assign →
      AssignOk k (growLoopF idxAdj k fuel st).assign := by
  intro fuel
  induction fuel with
  | zero => intro st h; exact h
  | succ fuel ih =>
      intro st h
      have heq : growLoopF idxAdj k (fuel + 1) st =
          if (growPass idxAdj k st).2 then growLoopF idxAdj k fuel (growPass idxAdj k st).1
          else (growPass idxAdj k st).1 := rfl
      rw [heq]
      by_cases hp : (growPass idxAdj k st).2
      · rw [if_pos hp]
        exact ih _ (growPass_assignOk st h)
      · rw [if_neg hp]
        exact growPass_assignOk st h

lemma buildGroups_spec {K : Type} :
    ∀ (ps : List (Polygon K)) (asg : List (Option ℕ)) (gs : List (List (Polygon K))),
      0 < gs.length → (∀ o ∈ asg, ∀ g, o = some g → g < gs.length) →
      (buildGroups ps asg gs).flatten.Perm (gs.flatten ++ ps) ∧
      (buildGroups ps asg gs).length = gs.length := by
  intro ps
  induction ps with
  | nil =>
      intro asg gs h0 _
      exact ⟨by simp [buildGroups], rfl⟩
  | cons p ps ih =>
      intro asg gs h0 hok
      have hl : ((asg.headD none).getD 0) < gs.length := by
        match asg with
        | [] => simpa using h0
        | o :: asg' =>
            match o with
            | none => simpa using h0
            | some g => exact hok (some g) (List.mem_cons_self _ _) g rfl
      have hok2 : ∀ o ∈ asg.tail, ∀ g, o = some g → g < (pushAt gs ((asg.headD none).getD 0) p).length := by
        intro o ho g hog
        rw [pushAt_length]
        refine hok o ?_ g hog
        match asg with
        | [] => exact absurd ho (List.not_mem_nil o)
        | o' :: asg' => exact List.mem_cons_of_mem o' ho
      have h02 : 0 < (pushAt gs ((asg.headD none).getD 0) p).length := by
        rw [pushAt_length]; exact h0
      obtain ⟨ihp, ihl⟩ := ih asg.tail (pushAt gs ((asg.headD none).getD 0) p) h02 hok2
      constructor
      · show (buildGroups ps asg.tail (pushAt gs ((asg.headD none).getD 0) p)).flatten.Perm
          (gs.flatten ++ p :: ps)
        refine ihp.trans ?_
        have hpush := (flatten_pushAt_perm gs ((asg.headD none).getD 0) p hl).append_right ps
        refine hpush.trans ?_
        rw [List.append_assoc]
        exact List.Perm.refl _
      · show (buildGroups ps asg.tail (pushAt gs ((asg.headD none).getD 0) p)).length
          = gs.length
        rw [ihl, pushAt_length]

lemma flatten_replicate_nil {α : Type} (k : ℕ) :
    (List.replicate k ([] : List α)).flatten = [] := by
  induction k with
  | zero => rfl
  | succ k ih => simpa using ih

lemma pruneStep_perm {K : Type} [DecidableEq K]
    (acc : List (List (Polygon K)) × List (Polygon K)) (g : List (Polygon K)) :
    ((pruneStep acc g).1.flatten ++ (pruneStep acc g).2).Perm
      ((acc.1.flatten ++ acc.2) ++ g) := by
  unfold pruneStep
  by_cases h1 : (splitConnectedComponents g).length ≤ 1
  · rw [if_pos h1]
    dsimp only
    rw [List.flatten_append]
    simp only [List.flatten_cons, List.flatten_nil, List.append_nil]
    rw [List.append_assoc, List.append_assoc]
    exact List.Perm.append_left acc.1.flatten List.perm_append_comm
  · rw [if_neg h1]
    dsimp only
    set sorted := (splitConnectedComponents g).mergeSort
      (fun a b => decide (b.length ≤ a.length)) with hsorted
    have hsne : sorted ≠ [] := by
      intro hnil
      have : sorted.length = 0 := by rw [hnil]; rfl
      rw [hsorted, List.length_mergeSort] at this
      omega
    have hdecomp : sorted.headD [] :: sorted.drop 1 = sorted := by
      match sorted, hsne with
      | s :: rest, _ => rfl
    have hflat : sorted.flatten.Perm g := by
      have hms : sorted.Perm (splitConnectedComponents g) :=
        List.mergeSort_perm (splitConnectedComponents g) _
      exact (hms.flatten).trans (splitCC_flatten_perm g)
    rw [List.flatten_append]
    simp only [List.flatten_cons, List.flatten_nil, List.append_nil]
    -- (acc1 ++ head) ++ (acc2 ++ rest) ~ (acc1 ++ acc2) ++ g
    have hg : (sorted.headD [] ++ (sorted.drop 1).flatten).Perm g := by
      have : sorted.headD [] ++ (sorted.drop 1).flatten
          = (sorted.headD [] :: sorted.drop 1).flatten := by
        simp
      rw [this, hdecomp]
      exact hflat
    have h1 : (acc.1.flatten ++ sorted.headD []) ++ (acc.2 ++ (sorted.drop 1).flatten)
        = acc.1.flatten ++ (sorted.headD [] ++ (acc.2 ++ (sorted.drop 1).flatten)) := by
      rw [List.append_assoc]
    have h2 : (sorted.headD [] ++ (acc.2 ++ (sorted.drop 1).flatten)).Perm
        (acc.2 ++ (sorted.headD [] ++ (sorted.drop 1).flatten)) := by
      rw [← List.append_assoc, ← List.append_assoc]
      exact List.Perm.append_right _ List.perm_append_comm
    have h3 : (acc.2 ++ (sorted.headD [] ++ (sorted.drop 1).flatten)).Perm (acc.2 ++ g) :=
      List.Perm.append_left _ hg
    rw [h1, List.append_assoc]
    exact List.Perm.append_left _ (h2.trans h3)

lemma pruneFold_spec {K : Type} [DecidableEq K] :
    ∀ (groups : List (List (Polygon K))) (acc : List (List (Polygon K)) × List (Polygon K)),
      ((groups.foldl pruneStep acc).1.flatten ++ (groups.foldl pruneStep acc).2).Perm
        ((acc.1.flatten ++ acc.2) ++ groups.flatten) ∧
      (groups.foldl pruneStep acc).1.length = acc.1.length + groups.length := by
  intro groups
  induction groups with
  | nil => intro acc; exact ⟨by simp, by simp⟩
  | cons g groups ih =>
      intro acc
      obtain ⟨ihp, ihl⟩ := ih (pruneStep acc g)
      constructor
      · show ((groups.foldl pruneStep (pruneStep acc g)).1.flatten ++ _).Perm
          ((acc.1.flatten ++ acc.2) ++ (g :: groups).flatten)
        refine ihp.trans ?_
        have hstep := (pruneStep_perm acc g).append_right groups.flatten
        refine hstep.trans ?_
        simp only [List.flatten_cons]
        rw [List.append_assoc, List.append_assoc]
      · show (groups.foldl pruneStep (pruneStep acc g)).1.length = _
        rw [ihl]
        have hsl : (pruneStep acc g).1.length = acc.1.length + 1 := by
          unfold pruneStep
          by_cases h1 : (splitConnectedComponents g).length ≤ 1
          · rw [if_pos h1]; simp
          · rw [if_neg h1]; simp
        rw [hsl, List.length_cons]
        omega

lemma pruneGroups_spec {K : Type} [DecidableEq K] (groups : List (List (Polygon K))) :
    ((pruneGroups groups).1.flatten ++ (pruneGroups groups).2).Perm groups.flatten ∧
    (pruneGroups groups).1.length = groups.length := by
  obtain ⟨hp, hl⟩ := pruneFold_spec groups ([], [])
  exact ⟨by simpa using hp, by simpa using hl⟩

lemma growConnectedGroups_spec {K : Type} [LinearOrderedField K] [DecidableEq K]
    (polys : List (Polygon K)) (k minTiles : ℕ) (centers : List (Pt K))
    (hk : 0 < k) :
    ((growConnectedGroups polys k minTiles centers).groups.flatten ++
      (growConnectedGroups polys k minTiles centers).pool).Perm polys ∧
    (growConnectedGroups polys k minTiles centers).groups.length = k := by
  unfold growConnectedGroups
  dsimp only
  set st := growLoop (buildAdjacency polys) k
    ⟨List.replicate polys.length none,
      (List.range polys.length).foldl (fun qs i =>
        pushAt qs (nearestCenterIdx (polygonCentroid (polys.getD i [])) centers) i)
        (List.replicate k [])⟩ with hst
  have hok : AssignOk k st.assign := by
    rw [hst]
    unfold growLoop
    refine growLoopF_assignOk _ _ ?_
    intro o ho g hog
    rw [List.eq_of_mem_replicate ho] at hog
    exact absurd hog (by simp)
  have hrep : (List.replicate k ([] : List (Polygon K))).length = k := by simp
  obtain ⟨hbp, hbl⟩ := buildGroups_spec polys st.assign (List.replicate k [])
    (by rw [hrep]; exact hk) (by rw [hrep]; exact hok)
  obtain ⟨hpp, hpl⟩ := pruneGroups_spec (buildGroups polys st.assign (List.replicate k []))
  constructor
  · refine hpp.trans ?_
    refine hbp.trans ?_
    rw [flatten_replicate_nil]
    exact List.Perm.refl _
  · rw [hpl, hbl, hrep]

/-! ### Witness data: four unit squares in a row (integer coordinates), and
two of them with rational coordinates -/

def sqA : Polygon ℤ := [(0,0),(1,0),(1,1),(0,1)]

def sqB : Polygon ℤ := [(1,0),(2,0),(2,1),(1,1)]

def sqC : Polygon ℤ := [(2,0),(3,0),(3,1),(2,1)]

def sqD : Polygon ℤ := [(3,0),(4,0),(4,1),(3,1)]

def sqAq : Polygon ℚ := [(0,0),(1,0),(1,1),(0,1)]

def sqBq : Polygon ℚ := [(1,0),(2,0),(2,1),(1,1)]

/-- C1: for every tile list fed to the grower+rebalancer pipeline
(growConnectedGroups followed by rebalanceBoundaries on its groups, pool and
adjacency, with targetCounts = k), the concatenation of the returned groups
is a permutation of the input tile list: with distinct input tiles, every
tile lands in exactly one group, none duplicated, none dropped. -/
theorem pipeline_partition {K : Type} [LinearOrderedField K] [DecidableEq K]
    (polys : List (Polygon K)) (k minTiles : ℕ) (centers : List (Pt K))
    (hk : 0 < k) (hnd : polys.Nodup) :
    (rebalanceBoundaries (growConnectedGroups polys k minTiles centers).groups
        (growConnectedGroups polys k minTiles centers).pool
        (growConnectedGroups polys k minTiles centers).idxAdj minTiles k).flatten.Perm
      polys := by
  obtain ⟨hp, hl⟩ := growConnectedGroups_spec polys k minTiles centers hk
  have hk2 : 0 < (growConnectedGroups polys k minTiles centers).groups.length := by
    rw [hl]; exact hk
  have hnd2 : ((growConnectedGroups polys k minTiles centers).groups.flatten ++
      (growConnectedGroups polys k minTiles centers).pool).Nodup :=
    (hp.nodup_iff).mpr hnd
  exact (rebalanceBoundaries_perm _ _ _ _ _ hk2 hnd2).trans hp

theorem pipeline_partition_witness :
    (rebalanceBoundaries (growConnectedGroups [sqAq, sqBq] 1 0 [((0:ℚ),(0:ℚ))]).groups
        (growConnectedGroups [sqAq, sqBq] 1 0 [((0:ℚ),(0:ℚ))]).pool
        (growConnectedGroups [sqAq, sqBq] 1 0 [((0:ℚ),(0:ℚ))]).idxAdj 0 1).flatten.Perm
      [sqAq, sqBq] :=
  pipeline_partition [sqAq, sqBq] 1 0 [((0:ℚ),(0:ℚ))] (by decide)
    (by norm_num [sqAq, sqBq])

/-- C2: the rebalancer returns exactly targetCount groups.  In the pipeline,
rebalanceBoundaries is called with the grower's groups and targetCounts = k,
and the result has length exactly k; in general the result always has
exactly as many groups as it was given, so whenever the given group list has
length targetCount the result has length targetCount, never more, never
fewer, even if some groups remain below minTiles. -/
theorem rebalance_returns_targetCount {K : Type} [LinearOrderedField K] [DecidableEq K]
    (polys : List (Polygon K)) (targetCount minTiles : ℕ) (centers : List (Pt K))
    (hk : 0 < targetCount) :
    (rebalanceBoundaries (growConnectedGroups polys targetCount minTiles centers).groups
        (growConnectedGroups polys targetCount minTiles centers).pool
        (growConnectedGroups polys targetCount minTiles centers).idxAdj
        minTiles targetCount).length = targetCount ∧
    ∀ (groups : List (List (Polygon K))) (pool : List (Polygon K))
      (idxAdj : List (List ℕ)),
      groups.length = targetCount →
      (rebalanceBoundaries groups pool idxAdj minTiles targetCount).length
        = targetCount := by
  constructor
  · rw [rebalanceBoundaries_length]
    exact (growConnectedGroups_spec polys targetCount minTiles centers hk).2
  · intro groups pool idxAdj hlen
    rw [rebalanceBoundaries_length]
    exact hlen

theorem rebalance_returns_targetCount_witness :
    (rebalanceBoundaries (growConnectedGroups [sqAq, sqBq] 1 0 [((0:ℚ),(0:ℚ))]).groups
        (growConnectedGroups [sqAq, sqBq] 1 0 [((0:ℚ),(0:ℚ))]).pool
        (growConnectedGroups [sqAq, sqBq] 1 0 [((0:ℚ),(0:ℚ))]).idxAdj
        0 1).length = 1 ∧
    ∀ (groups : List (List (Polygon ℚ))) (pool : List (Polygon ℚ))
      (idxAdj : List (List ℕ)),
      groups.length = 1 →
      (rebalanceBoundaries groups pool idxAdj 0 1).length = 1 :=
  rebalance_returns_targetCount [sqAq, sqBq] 1 0 [((0:ℚ),(0:ℚ))] (by decide)

/-- C3: whenever the donor search of the boundary exchange selects tile t
from donor group gj for receiver gi, the donor is a different group of size
strictly greater than minTiles, t is one of its tiles, t shares a geometric
edge with some tile already in the receiver, and the donor minus t splits
into exactly one connected component — hence rebalanceStep performs exactly
this transfer and the donor is never disconnected by it. -/
theorem donor_transfer_safe {K : Type} [DecidableEq K]
    (groups : List (List (Polygon K))) (minTiles gi gj : ℕ) (t : Polygon K)
    (hfind : findDonorTile groups minTiles gi = some (gj, t)) :
    gj ≠ gi ∧ minTiles < (groups.getD gj []).length ∧
    t ∈ groups.getD gj [] ∧
    (∃ r ∈ groups.getD gi [], shareEdge t r = true) ∧
    (splitConnectedComponents
      ((groups.getD gj []).filter (fun p => p ≠ t))).length = 1 ∧
    rebalanceStep minTiles groups gi = applyTransfer groups gi gj t := by
  obtain ⟨hlt, hne, hmin, hmem, hsh, hstays⟩ := findDonorTile_spec hfind
  refine ⟨hne, hmin, hmem, hsh, ?_, ?_⟩
  · simp only [staysConnectedAfterRemoval] at hstays
    by_cases h0 : ((groups.getD gj []).filter (fun p => p ≠ t)).length = 0
    · rw [if_pos h0] at hstays
      exact absurd hstays (by simp)
    · rw [if_neg h0] at hstays
      exact of_decide_eq_true hstays
  · unfold rebalanceStep
    rw [hfind]

theorem donor_transfer_safe_witness :
    (1 : ℕ) ≠ 0 ∧
    2 < (([[sqA], [sqB, sqC, sqD]].getD 1 []) : List (Polygon ℤ)).length ∧
    sqB ∈ ([[sqA], [sqB, sqC, sqD]] : List (List (Polygon ℤ))).getD 1 [] ∧
    (∃ r ∈ ([[sqA], [sqB, sqC, sqD]] : List (List (Polygon ℤ))).getD 0 [],
      shareEdge sqB r = true) ∧
    (splitConnectedComponents
      ((([[sqA], [sqB, sqC, sqD]] : List (List (Polygon ℤ))).getD 1 []).filter
        (fun p => p ≠ sqB))).length = 1 ∧
    rebalanceStep 2 [[sqA], [sqB, sqC, sqD]] 0
      = applyTransfer [[sqA], [sqB, sqC, sqD]] 0 1 sqB :=
  donor_transfer_safe [[sqA], [sqB, sqC, sqD]] 2 0 1 sqB (by decide)

/-! ### forceAssignWithConnectivity: the count-repair bisection loop -/

/-- maxBy over the range of group indices with iteratee group length:
first index attaining the maximal length (lodash maxBy replaces the running
best only on a strict increase). -/
def maxByLengthIdx {a : Type} (gs : List (List a)) : ℕ :=
  (List.range gs.length).foldl (fun best i =>
    if (gs.getD best []).length < (gs.getD i []).length then i else best) 0

/-- The while-loop of forceAssignWithConnectivity that repairs the group
count: while validGroups.length < numGroups, take the largest group; stop
if it has at most minTiles*2 tiles; otherwise splice off its first half as
a brand-new group (the largest keeps its second half in place).  Each pass
grows the list by one, so numGroups steps of fuel always suffice; on an
empty list the JS code would fault (maxBy of an empty range is undefined),
here the empty largest group stops the loop instead. -/
def forceAssignSplitLoopF {a : Type} (minTiles numGroups : ℕ) :
    ℕ → List (List a) → List (List a)
  | 0, gs => gs
  | fuel + 1, gs =>
      if gs.length < numGroups then
        if (gs.getD (maxByLengthIdx gs) []).length ≤ minTiles * 2 then gs
        else
          forceAssignSplitLoopF minTiles numGroups fuel
            (gs.set (maxByLengthIdx gs)
              ((gs.getD (maxByLengthIdx gs) []).drop
                ((gs.getD (maxByLengthIdx gs) []).length / 2)) ++
             [(gs.getD (maxByLengthIdx gs) []).take
                ((gs.getD (maxByLengthIdx gs) []).length / 2)])
      else gs

def forceAssignSplitLoop {a : Type} (minTiles numGroups : ℕ)
    (gs : List (List a)) : List (List a) :=
  forceAssignSplitLoopF minTiles numGroups numGroups gs

lemma foldl_maxBy_spec {a : Type} (gs : List (List a)) :
    ∀ (l : List ℕ) (b : ℕ),
      (gs.getD b []).length ≤ (gs.getD (l.foldl (fun best i =>
        if (gs.getD best []).length < (gs.getD i []).length then i else best) b)
        []).length ∧
      ∀ i ∈ l, (gs.getD i []).length ≤ (gs.getD (l.foldl (fun best i =>
        if (gs.getD best []).length < (gs.getD i []).length then i else best) b)
        []).length := by
  intro l
  induction l with
  | nil => intro b; exact ⟨le_refl _, by simp⟩
  | cons j l ih =>
      intro b
      simp only [List.foldl_cons]
      by_cases hj : (gs.getD b []).length < (gs.getD j []).length
      · rw [if_pos hj]
        obtain ⟨h1, h2⟩ := ih j
        refine ⟨le_of_lt (lt_of_lt_of_le hj h1), ?_⟩
        intro i hi
        rcases List.mem_cons.mp hi with rfl | hi
        · exact h1
        · exact h2 i hi
      · rw [if_neg hj]
        obtain ⟨h1, h2⟩ := ih b
        refine ⟨h1, ?_⟩
        intro i hi
        rcases List.mem_cons.mp hi with rfl | hi
        · exact le_trans (le_of_not_lt hj) h1
        · exact h2 i hi

lemma maxByLengthIdx_spec {a : Type} (gs : List (List a)) :
    ∀ g ∈ gs, g.length ≤ (gs.getD (maxByLengthIdx gs) []).length := by
  intro g hg
  obtain ⟨i, hilt, hgi⟩ := List.mem_iff_getElem.mp hg
  have hgd : gs.getD i [] = g := by
    rw [List.getD_eq_getElem?_getD, List.getElem?_eq_getElem hilt]
    simpa using hgi
  have := (foldl_maxBy_spec gs (List.range gs.length) 0).2 i
    (List.mem_range.mpr hilt)
  rw [hgd] at this
  exact this

lemma forceAssignSplitLoopF_post {a : Type} (minTiles numGroups : ℕ) :
    ∀ (fuel : ℕ) (gs : List (List a)), numGroups ≤ gs.length + fuel →
      numGroups ≤ (forceAssignSplitLoopF minTiles numGroups fuel gs).length ∨
      ((forceAssignSplitLoopF minTiles numGroups fuel gs).getD
        (maxByLengthIdx (forceAssignSplitLoopF minTiles numGroups fuel gs))
        []).length ≤ minTiles * 2 := by
  intro fuel
  induction fuel with
  | zero =>
      intro gs hle
      left
      simpa using hle
  | succ fuel ih =>
      intro gs hle
      have heq : forceAssignSplitLoopF minTiles numGroups (fuel + 1) gs =
          if gs.length < numGroups then
            if (gs.getD (maxByLengthIdx gs) []).length ≤ minTiles * 2 then gs
            else
              forceAssignSplitLoopF minTiles numGroups fuel
                (gs.set (maxByLengthIdx gs)
                  ((gs.getD (maxByLengthIdx gs) []).drop
                    ((gs.getD (maxByLengthIdx gs) []).length / 2)) ++
                 [(gs.getD (maxByLengthIdx gs) []).take
                    ((gs.getD (maxByLengthIdx gs) []).length / 2)])
          else gs := rfl
      rw [heq]
      by_cases hlt : gs.length < numGroups
      · rw [if_pos hlt]
        by_cases hsm : (gs.getD (maxByLengthIdx gs) []).length ≤ minTiles * 2
        · rw [if_pos hsm]
          right
          exact hsm
        · rw [if_neg hsm]
          refine ih _ ?_
          rw [List.length_append, List.length_set, List.length_cons,
            List.length_nil]
          omega
      · rw [if_neg hlt]
        left
        omega

/-- C4: the count-repair loop of forceAssignWithConnectivity.  The selected
index is always that of a largest group; while the count is short and the
largest group is strictly bigger than 2*minTiles, one pass splices off the
first half of the largest group's ordered tile list as a new group, the
largest keeping the second half in place; and the loop ends only with the
target count reached or with every remaining group of size at most
2*minTiles. -/
theorem forceAssign_bisection {a : Type} (minTiles numGroups fuel : ℕ)
    (gs : List (List a)) (hne : gs ≠ []) :
    (∀ g ∈ gs, g.length ≤ (gs.getD (maxByLengthIdx gs) []).length) ∧
    (gs.length < numGroups →
      minTiles * 2 < (gs.getD (maxByLengthIdx gs) []).length →
      forceAssignSplitLoopF minTiles numGroups (fuel + 1) gs
        = forceAssignSplitLoopF minTiles numGroups fuel
            (gs.set (maxByLengthIdx gs)
              ((gs.getD (maxByLengthIdx gs) []).drop
                ((gs.getD (maxByLengthIdx gs) []).length / 2)) ++
             [(gs.getD (maxByLengthIdx gs) []).take
                ((gs.getD (maxByLengthIdx gs) []).length / 2)])) ∧
    (numGroups ≤ (forceAssignSplitLoop minTiles numGroups gs).length ∨
      ∀ g ∈ forceAssignSplitLoop minTiles numGroups gs,
        g.length ≤ minTiles * 2) := by
  refine ⟨maxByLengthIdx_spec gs, ?_, ?_⟩
  · intro hlt hbig
    have heq : forceAssignSplitLoopF minTiles numGroups (fuel + 1) gs =
        if gs.length < numGroups then
          if (gs.getD (maxByLengthIdx gs) []).length ≤ minTiles * 2 then gs
          else
            forceAssignSplitLoopF minTiles numGroups fuel
              (gs.set (maxByLengthIdx gs)
                ((gs.getD (maxByLengthIdx gs) []).drop
                  ((gs.getD (maxByLengthIdx gs) []).length / 2)) ++
               [(gs.getD (maxByLengthIdx gs) []).take
                  ((gs.getD (maxByLengthIdx gs) []).length / 2)])
        else gs := rfl
    rw [heq, if_pos hlt, if_neg (not_le.mpr hbig)]
  · rcases forceAssignSplitLoopF_post minTiles numGroups numGroups gs
      (by omega) with h | h
    · exact Or.inl h
    · right
      intro g hg
      exact le_trans (maxByLengthIdx_spec _ g hg) h

theorem forceAssign_bisection_witness :
    (∀ g ∈ ([[0, 1, 2, 3]] : List (List ℕ)),
      g.length ≤ (([[0, 1, 2, 3]] : List (List ℕ)).getD
        (maxByLengthIdx [[0, 1, 2, 3]]) []).length) ∧
    (([[0, 1, 2, 3]] : List (List ℕ)).length < 2 →
      0 * 2 < (([[0, 1, 2, 3]] : List (List ℕ)).getD
        (maxByLengthIdx [[0, 1, 2, 3]]) []).length →
      forceAssignSplitLoopF 0 2 (0 + 1) [[0, 1, 2, 3]]
        = forceAssignSplitLoopF 0 2 0
            (([[0, 1, 2, 3]] : List (List ℕ)).set (maxByLengthIdx [[0, 1, 2, 3]])
              ((([[0, 1, 2, 3]] : List (List ℕ)).getD
                  (maxByLengthIdx [[0, 1, 2, 3]]) []).drop
                ((([[0, 1, 2, 3]] : List (List ℕ)).getD
                    (maxByLengthIdx [[0, 1, 2, 3]]) []).length / 2)) ++
             [(([[0, 1, 2, 3]] : List (List ℕ)).getD
                  (maxByLengthIdx [[0, 1, 2, 3]]) []).take
                ((([[0, 1, 2, 3]] : List (List ℕ)).getD
                    (maxByLengthIdx [[0, 1, 2, 3]]) []).length / 2)])) ∧
    (2 ≤ (forceAssignSplitLoop 0 2 [[0, 1, 2, 3]]).length ∨
      ∀ g ∈ forceAssignSplitLoop 0 2 ([[0, 1, 2, 3]] : List (List ℕ)),
        g.length ≤ 0 * 2) :=
  forceAssign_bisection 0 2 0 [[0, 1, 2, 3]] (by decide)

/-! ### drawBorders: boundary extraction by edge-pair cancellation -/

/-- The edgeMap fold of drawBorders: for each directed edge of each member
tile, if the reversed key is already recorded the pair cancels (internal
edge), otherwise the edge is recorded under its own key.  Keys are the
coordinate pairs themselves, matching the JS string keys built from the
coordinates. -/
def drawBordersMap {K : Type} [DecidableEq K] (polys : List (Polygon K)) :
    List ((Pt K × Pt K) × (Pt K × Pt K)) :=
  polys.foldl (fun m poly =>
    (polyEdges poly).foldl (fun m e =>
      match mapFind? m (e.2, e.1) with
      | some _ => mapDelete m (e.2, e.1)
      | none => mapSet m e e) m) []

lemma mapFind?_none_iff {A B : Type} [DecidableEq A] {m : List (A × B)} {k : A} :
    mapFind? m k = none ↔ ∀ kv ∈ m, kv.1 ≠ k := by
  unfold mapFind?
  rw [Option.map_eq_none', List.find?_eq_none]
  constructor
  · intro h kv hkv
    have := h kv hkv
    simpa using this
  · intro h kv hkv
    simpa using h kv hkv

lemma mapSet_of_none {A B : Type} [DecidableEq A] {m : List (A × B)} {k : A}
    (v : B) (h : mapFind? m k = none) : mapSet m k v = m ++ [(k, v)] := by
  unfold mapSet
  unfold mapFind? at h
  rw [Option.map_eq_none'] at h
  rw [h]
  simp

lemma mapFind?_append_single_none {A B : Type} [DecidableEq A]
    {m : List (A × B)} {k k' : A} (v : B)
    (h : mapFind? m k = none) (hk : k' ≠ k) :
    mapFind? (m ++ [(k', v)]) k = none := by
  rw [mapFind?_none_iff]
  intro kv hkv
  rcases List.mem_append.mp hkv with hkv | hkv
  · exact (mapFind?_none_iff.mp h) kv hkv
  · have : kv = (k', v) := by simpa using hkv
    rw [this]
    exact hk

lemma drawBorders_fold_append {K : Type} [DecidableEq K] :
    ∀ (es : List (Pt K × Pt K)) (m : List ((Pt K × Pt K) × (Pt K × Pt K))),
      (∀ e ∈ es, mapFind? m (e.2, e.1) = none) →
      (∀ e ∈ es, mapFind? m e = none) →
      es.Nodup →
      (∀ e1 ∈ es, ∀ e2 ∈ es, e1 ≠ (e2.2, e2.1)) →
      es.foldl (fun m e =>
        match mapFind? m (e.2, e.1) with
        | some _ => mapDelete m (e.2, e.1)
        | none => mapSet m e e) m = m ++ es.map (fun e => (e, e)) := by
  intro es
  induction es with
  | nil => intro m _ _ _ _; simp
  | cons e es ih =>
      intro m hnone hnone' hnd hrev
      simp only [List.foldl_cons, List.map_cons]
      have he : mapFind? m (e.2, e.1) = none :=
        hnone e (List.mem_cons_self _ _)
      rw [he]
      have hset := mapSet_of_none (m := m) (k := e) e
        (hnone' e (List.mem_cons_self _ _))
      rw [hset]
      obtain ⟨hnotmem, hnd'⟩ := List.nodup_cons.mp hnd
      have hnone2 : ∀ e' ∈ es, mapFind? (m ++ [(e, e)]) (e'.2, e'.1) = none := by
        intro e' he'
        exact mapFind?_append_single_none _
          (hnone e' (List.mem_cons_of_mem _ he'))
          (hrev e (List.mem_cons_self _ _) e' (List.mem_cons_of_mem _ he'))
      have hnone2' : ∀ e' ∈ es, mapFind? (m ++ [(e, e)]) e' = none := by
        intro e' he'
        refine mapFind?_append_single_none _
          (hnone' e' (List.mem_cons_of_mem _ he')) ?_
        intro hcontra
        rw [← hcontra] at he'
        exact hnotmem he'
      have hrev2 : ∀ e1 ∈ es, ∀ e2 ∈ es, e1 ≠ (e2.2, e2.1) := by
        intro e1 h1 e2 h2
        exact hrev e1 (List.mem_cons_of_mem _ h1) e2 (List.mem_cons_of_mem _ h2)
      rw [ih (m ++ [(e, e)]) hnone2 hnone2' hnd' hrev2, List.append_assoc]
      rfl

/-- C9: for a group of exactly one tile whose polygon has no directed edge
equal to the reverse of another of its own edges, the edge-pair cancellation
of drawBorders records every edge and cancels none: the resulting map is
exactly the tile's full directed edge list keyed by itself, its size is the
number of polygon vertices, and for a nonempty polygon it is never empty. -/
theorem drawBorders_single_tile {K : Type} [DecidableEq K]
    (poly : Polygon K) (hnd : (polyEdges poly).Nodup)
    (hrev : ∀ e1 ∈ polyEdges poly, ∀ e2 ∈ polyEdges poly, e1 ≠ (e2.2, e2.1)) :
    drawBordersMap [poly] = (polyEdges poly).map (fun e => (e, e)) ∧
    (drawBordersMap [poly]).length = poly.length ∧
    (poly ≠ [] → 0 < (drawBordersMap [poly]).length) := by
  have hmap : drawBordersMap [poly] = (polyEdges poly).map (fun e => (e, e)) := by
    unfold drawBordersMap
    simp only [List.foldl_cons, List.foldl_nil]
    have := drawBorders_fold_append (polyEdges poly) []
      (fun e _ => rfl) (fun e _ => rfl) hnd hrev
    rw [this]
    rfl
  have hlen : (drawBordersMap [poly]).length = poly.length := by
    rw [hmap, List.length_map]
    unfold polyEdges
    rw [List.length_zip, List.length_rotate]
    exact Nat.min_self _
  refine ⟨hmap, hlen, ?_⟩
  intro hne
  rw [hlen]
  exact List.length_pos.mpr hne

theorem drawBorders_single_tile_witness :
    drawBordersMap [sqA] = (polyEdges sqA).map (fun e => (e, e)) ∧
    (drawBordersMap [sqA]).length = sqA.length ∧
    (sqA ≠ [] → 0 < (drawBordersMap [sqA]).length) :=
  drawBorders_single_tile sqA (by decide) (by decide)

/-! ### generateCentersInPolygons: seeding with Poisson accept, rejection
top-up and degenerate-hull jitter fallback -/

/-- d3.polygonContains: even-odd ray casting starting from the closing edge
(last vertex to first). -/
def polygonContains {K : Type} [LinearOrderedField K]
    (polygon : List (Pt K)) (point : Pt K) : Bool :=
  match polygon.getLast? with
  | none => false
  | some pLast =>
      (polygon.foldl (fun st p =>
        let inside :=
          if ((decide (p.2 > point.2)) != (decide (st.2.2 > point.2))) &&
              decide (point.1 <
                (st.2.1 - p.1) * (point.2 - p.2) / (st.2.2 - p.2) + p.1)
          then !st.1 else st.1
        (inside, p)) (false, pLast)).1

/-- d3.min of a list of numbers (0 stands in for the undefined of an empty
list, unreachable under the hull-length guard). -/
def d3min {K : Type} [LinearOrderedField K] : List K → K
  | [] => 0
  | x :: xs => xs.foldl min x

/-- The Poisson acceptance pass: walk the raw samples while fewer than num
centers are kept, offset each by (minX, minY) and keep it iff it lies in
the hull. -/
def poissonAccept {K : Type} [LinearOrderedField K] (num : ℕ)
    (hull : List (Pt K)) (minX minY : K) (raw : List (Pt K)) : List (Pt K) :=
  raw.foldl (fun centers rp =>
    if centers.length < num then
      if polygonContains hull (rp.1 + minX, rp.2 + minY) then
        centers ++ [(rp.1 + minX, rp.2 + minY)]
      else centers
    else centers) []

/-- The rejection top-up loop: while still short of num and the guard is
below 5000, draw the next random point (the rand stream models
consecutive calls of the random generator, indexed by the guard counter)
and keep it iff it lies in the hull.  Fuel 5000 runs the loop to its
guard bound. -/
def rejectLoopF {K : Type} [LinearOrderedField K] (num : ℕ)
    (hull : List (Pt K)) (rand : ℕ → Pt K) :
    ℕ → ℕ → List (Pt K) → List (Pt K)
  | 0, _, centers => centers
  | fuel + 1, guard, centers =>
      if centers.length < num ∧ guard < 5000 then
        if polygonContains hull (rand guard) then
          rejectLoopF num hull rand fuel (guard + 1) (centers ++ [rand guard])
        else rejectLoopF num hull rand fuel (guard + 1) centers
      else centers

/-- generateCentersInPolygons(num, polygons): the hull argument models the
d3.polygonHull result on the flattened polygons, raw the Poisson disk
samples, rand the random stream of the rejection loop, jitter the random
points of the degenerate-hull fallback.  A null or sub-triangle hull
jitters num points around the map centre; otherwise Poisson acceptance is
topped up by the guarded rejection loop — with no further fallback. -/
def generateCentersInPolygons {K : Type} [LinearOrderedField K] (num : ℕ)
    (hull : Option (List (Pt K))) (raw : List (Pt K))
    (rand : ℕ → Pt K) (jitter : ℕ → Pt K) : List (Pt K) :=
  match hull with
  | none => (List.range num).map jitter
  | some hl =>
      if hl.length < 3 then (List.range num).map jitter
      else
        rejectLoopF num hl rand 5000 0
          (poissonAccept num hl (d3min (hl.map Prod.fst))
            (d3min (hl.map Prod.snd)) raw)

lemma rejectLoopF_const_reject {K : Type} [LinearOrderedField K]
    (num : ℕ) (hull : List (Pt K)) (rand : ℕ → Pt K)
    (hrej : ∀ g, polygonContains hull (rand g) = false) :
    ∀ (fuel guard : ℕ) (centers : List (Pt K)),
      rejectLoopF num hull rand fuel guard centers = centers := by
  intro fuel
  induction fuel with
  | zero => intro guard centers; rfl
  | succ fuel ih =>
      intro guard centers
      have heq : rejectLoopF num hull rand (fuel + 1) guard centers =
          if centers.length < num ∧ guard < 5000 then
            if polygonContains hull (rand guard) then
              rejectLoopF num hull rand fuel (guard + 1) (centers ++ [rand guard])
            else rejectLoopF num hull rand fuel (guard + 1) centers
          else centers := rfl
      rw [heq]
      by_cases h : centers.length < num ∧ guard < 5000
      · rw [if_pos h, hrej guard]
        simp only [Bool.false_eq_true, if_false]
        exact ih _ _
      · rw [if_neg h]

lemma poissonAccept_le {K : Type} [LinearOrderedField K] (num : ℕ)
    (hull : List (Pt K)) (minX minY : K) (raw : List (Pt K)) :
    (poissonAccept num hull minX minY raw).length ≤ num := by
  unfold poissonAccept
  refine foldl_preserve (P := fun centers : List (Pt K) => centers.length ≤ num)
    _ raw [] (by simp) ?_
  intro centers rp _ hle
  by_cases hlt : centers.length < num
  · rw [if_pos hlt]
    by_cases hin : polygonContains hull (rp.1 + minX, rp.2 + minY)
    · rw [if_pos hin]
      rw [List.length_append]
      simpa using hlt
    · rw [if_neg hin]
      exact hle
  · rw [if_neg hlt]
    exact hle

lemma rejectLoopF_le {K : Type} [LinearOrderedField K] (num : ℕ)
    (hull : List (Pt K)) (rand : ℕ → Pt K) :
    ∀ (fuel guard : ℕ) (centers : List (Pt K)), centers.length ≤ num →
      (rejectLoopF num hull rand fuel guard centers).length ≤ num := by
  intro fuel
  induction fuel with
  | zero => intro guard centers h; exact h
  | succ fuel ih =>
      intro guard centers h
      have heq : rejectLoopF num hull rand (fuel + 1) guard centers =
          if centers.length < num ∧ guard < 5000 then
            if polygonContains hull (rand guard) then
              rejectLoopF num hull rand fuel (guard + 1) (centers ++ [rand guard])
            else rejectLoopF num hull rand fuel (guard + 1) centers
          else centers := rfl
      rw [heq]
      by_cases hc : centers.length < num ∧ guard < 5000
      · rw [if_pos hc]
        by_cases hin : polygonContains hull (rand guard)
        · rw [if_pos hin]
          refine ih _ _ ?_
          rw [List.length_append]
          simpa using hc.1
        · rw [if_neg hin]
          exact ih _ _ h
      · rw [if_neg hc]
        exact h

/-- C8 counterexample: a non-degenerate hull (the triangle (0,0),(4,0),(0,4),
three vertices, so the jitter fallback of the degenerate branch is not
taken), one requested centre, one raw Poisson sample falling outside the
hull after offsetting, and a rejection stream whose every draw lies outside
the hull: the seeder returns no centre at all, not the requested one —
there is no jitter fallback after the rejection budget on this path. -/
theorem seeding_always_k_counterexample :
    ¬ (([((0:ℚ),0),(4,0),(0,4)] : List (Pt ℚ)).length < 3) ∧
    (generateCentersInPolygons 1 (some [((0:ℚ),0),(4,0),(0,4)])
      [((4:ℚ),4)] (fun _ => ((4:ℚ),4)) (fun _ => ((0:ℚ),0))).length ≠ 1 := by
  constructor
  · decide
  · have hc : polygonContains [((0:ℚ),0),(4,0),(0,4)] ((4:ℚ),4) = false := by
      norm_num [polygonContains]
    have hpa : poissonAccept 1 [((0:ℚ),0),(4,0),(0,4)]
        (d3min (([((0:ℚ),0),(4,0),(0,4)] : List (Pt ℚ)).map Prod.fst))
        (d3min (([((0:ℚ),0),(4,0),(0,4)] : List (Pt ℚ)).map Prod.snd))
        [((4:ℚ),4)] = [] := by
      norm_num [poissonAccept, d3min, polygonContains, min_def]
    simp only [generateCentersInPolygons]
    rw [if_neg (by decide)]
    rw [hpa, rejectLoopF_const_reject 1 _ _ (fun g => hc) 5000 0 []]
    decide

/-- C8 amended: on the degenerate-hull branch (null hull or fewer than three
vertices) the seeder returns exactly num jittered centres; on the
non-degenerate branch it returns at most num centres — Poisson acceptance
and the guarded rejection top-up both stop at num, and nothing refills a
shortfall once the 5000-attempt budget is spent. -/
theorem seeding_centers_amended {K : Type} [LinearOrderedField K] (num : ℕ)
    (hull : Option (List (Pt K))) (raw : List (Pt K))
    (rand : ℕ → Pt K) (jitter : ℕ → Pt K) :
    (generateCentersInPolygons num hull raw rand jitter).length ≤ num ∧
    ((hull = none ∨ ∃ hl, hull = some hl ∧ hl.length < 3) →
      (generateCentersInPolygons num hull raw rand jitter).length = num) := by
  match hull with
  | none =>
      constructor
      · simp [generateCentersInPolygons]
      · intro _
        simp [generateCentersInPolygons]
  | some hl =>
      by_cases hdeg : hl.length < 3
      · constructor
        · simp only [generateCentersInPolygons]
          rw [if_pos hdeg]
          simp
        · intro _
          simp only [generateCentersInPolygons]
          rw [if_pos hdeg]
          simp
      · constructor
        · simp only [generateCentersInPolygons]
          rw [if_neg hdeg]
          exact rejectLoopF_le num hl rand 5000 0 _
            (poissonAccept_le num hl (d3min (hl.map Prod.fst))
              (d3min (hl.map Prod.snd)) raw)
        · intro hcase
          rcases hcase with hnone | ⟨hl2, heq2, hdeg2⟩
          · exact absurd hnone (by simp)
          · have : hl = hl2 := by
              injection heq2
            rw [this] at hdeg
            exact absurd hdeg2 hdeg

/-! ### IsTargetPokygon: the island land classification over the reals -/

def ISLAND_FACTOR : ℝ := 1

/-- Math.atan2(y, x) with the JS branch structure (the x = 0 column returns
the half-pi values, and 0 at the origin). -/
noncomputable def atan2 (y x : ℝ) : ℝ :=
  if 0 < x then Real.arctan (y / x)
  else if x < 0 then
    (if 0 ≤ y then Real.arctan (y / x) + Real.pi
     else Real.arctan (y / x) - Real.pi)
  else if 0 < y then Real.pi / 2
  else if y < 0 then -(Real.pi / 2)
  else 0

noncomputable def islandDist (c cen : Pt ℝ) : ℝ :=
  Real.sqrt ((c.1 - cen.1) ^ 2 + (c.2 - cen.2) ^ 2)

/-- The angle of the source, axes mixed exactly as written there:
atan2(cy - centerPoint.x, cx - centerPoint.y). -/
noncomputable def islandAngle (c cen : Pt ℝ) : ℝ :=
  atan2 (c.2 - cen.1) (c.1 - cen.2)

noncomputable def islandLength (c cen : Pt ℝ) : ℝ :=
  0.5 * (max |c.1 - cen.1| |c.2 - cen.2| + islandDist c cen)

noncomputable def islandR1 (pixelScale startAngle : ℝ) (bumps : ℕ)
    (scale : ℝ) (c cen : Pt ℝ) : ℝ :=
  (0.5 + 0.4 * Real.sin (startAngle + (bumps : ℝ) * islandAngle c cen +
      Real.cos (((bumps : ℝ) + 3) * islandAngle c cen))) * pixelScale * scale

noncomputable def islandR2 (pixelScale startAngle : ℝ) (bumps : ℕ)
    (scale : ℝ) (c cen : Pt ℝ) : ℝ :=
  (0.7 - 0.2 * Real.sin (startAngle + (bumps : ℝ) * islandAngle c cen -
      Real.sin (((bumps : ℝ) + 2) * islandAngle c cen))) * pixelScale * scale

/-- IsTargetPokygon(polygon, centerPoint, startAngle, bumps, scale): the
two-disjunct land test of the source,
length < r1 || (length > r1 * ISLAND_FACTOR && length < r2). -/
def IsTargetPokygon (pixelScale : ℝ) (polygon : Polygon ℝ) (cen : Pt ℝ)
    (startAngle : ℝ) (bumps : ℕ) (scale : ℝ) : Prop :=
  islandLength (polygonCentroid polygon) cen
      < islandR1 pixelScale startAngle bumps scale (polygonCentroid polygon) cen ∨
  (islandLength (polygonCentroid polygon) cen
      > islandR1 pixelScale startAngle bumps scale (polygonCentroid polygon) cen
        * ISLAND_FACTOR ∧
   islandLength (polygonCentroid polygon) cen
      < islandR2 pixelScale startAngle bumps scale (polygonCentroid polygon) cen)

/-- The single-test form the spec says the two-disjunct test collapses to:
length < r2.  This definition follows the spec wording, for comparison with
IsTargetPokygon taken from the source. -/
def islandSingleTest (pixelScale : ℝ) (polygon : Polygon ℝ) (cen : Pt ℝ)
    (startAngle : ℝ) (bumps : ℕ) (scale : ℝ) : Prop :=
  islandLength (polygonCentroid polygon) cen
    < islandR2 pixelScale startAngle bumps scale (polygonCentroid polygon) cen

/-- C5 amended: with ISLAND_FACTOR = 1, at every input where length differs
from r1 AND r1 is at most r2, the two-disjunct test agrees with the single
test length < r2.  (Without the r1 le r2 hypothesis the equivalence fails:
see the counterexample, where r2 < length < r1 makes the two-disjunct test
land but the single test water.) -/
theorem island_two_term_vs_single_amended (pixelScale : ℝ) (poly : Polygon ℝ)
    (cen : Pt ℝ) (startAngle : ℝ) (bumps : ℕ) (scale : ℝ)
    (hr : islandR1 pixelScale startAngle bumps scale (polygonCentroid poly) cen
        ≤ islandR2 pixelScale startAngle bumps scale (polygonCentroid poly) cen)
    (hne : islandLength (polygonCentroid poly) cen
        ≠ islandR1 pixelScale startAngle bumps scale (polygonCentroid poly) cen) :
    (IsTargetPokygon pixelScale poly cen startAngle bumps scale ↔
      islandSingleTest pixelScale poly cen startAngle bumps scale) := by
  unfold IsTargetPokygon islandSingleTest ISLAND_FACTOR
  rw [mul_one]
  constructor
  · rintro (h | ⟨h1, h2⟩)
    · exact lt_of_lt_of_le h hr
    · exact h2
  · intro h
    rcases lt_trichotomy (islandLength (polygonCentroid poly) cen)
      (islandR1 pixelScale startAngle bumps scale (polygonCentroid poly) cen)
      with hlt | heq | hgt
    · exact Or.inl hlt
    · exact absurd heq hne
    · exact Or.inr ⟨hgt, h⟩

lemma unitSquare_centroid :
    polygonCentroid [((1:ℝ),1),(-1,1),(-1,-1),(1,-1)] = (0,0) := by
  norm_num [polygonCentroid, centroidScan]

lemma islandAngle_origin : islandAngle ((0:ℝ),(0:ℝ)) (0,0) = 0 := by
  norm_num [islandAngle, atan2]

lemma islandLength_origin : islandLength ((0:ℝ),(0:ℝ)) (0,0) = 0 := by
  norm_num [islandLength, islandDist]

theorem island_two_term_vs_single_amended_witness :
    (IsTargetPokygon 1 [((1:ℝ),1),(-1,1),(-1,-1),(1,-1)] (0,0) (-1) 0 1 ↔
      islandSingleTest 1 [((1:ℝ),1),(-1,1),(-1,-1),(1,-1)] (0,0) (-1) 0 1) := by
  refine island_two_term_vs_single_amended 1 _ (0,0) (-1) 0 1 ?_ ?_
  · rw [unitSquare_centroid]
    unfold islandR1 islandR2
    rw [islandAngle_origin]
    norm_num
    linarith [Real.neg_one_le_sin 1]
  · rw [unitSquare_centroid, islandLength_origin]
    unfold islandR1
    rw [islandAngle_origin]
    norm_num

/-! ### C5 counterexample data: a square centred at (2*sqrt3, 2), angle pi/6 -/

noncomputable def sqIsland : Polygon ℝ := [(2 * Real.sqrt 3 + 1, 3), (2 * Real.sqrt 3 - 1, 3),
  (2 * Real.sqrt 3 - 1, 1), (2 * Real.sqrt 3 + 1, 1)]

lemma sqIsland_centroid : polygonCentroid sqIsland = (2 * Real.sqrt 3, 2) := by
  have h : polygonCentroid sqIsland = ((2 * Real.sqrt 3) * 24 / 24, 48 / 24) := by
    norm_num [sqIsland, polygonCentroid, centroidScan]
    ring_nf
    constructor <;> ring_nf
  rw [h]
  norm_num

lemma sqrt3_between : 1.7 < Real.sqrt 3 ∧ Real.sqrt 3 < 1.8 := by
  have hs := Real.sq_sqrt (show (0:ℝ) ≤ 3 by norm_num)
  have h0 := Real.sqrt_nonneg 3
  constructor
  · nlinarith
  · nlinarith

lemma cos_one_ge : (43:ℝ)/96 ≤ Real.cos 1 := by
  have h := Real.cos_bound (x := 1) (by norm_num)
  rw [abs_le] at h
  norm_num at h
  linarith [h.1]

lemma cos_half_ge : (7:ℝ)/8 - 5/1536 ≤ Real.cos (1/2) := by
  have h := Real.cos_bound (x := 1/2) (by rw [abs_le]; constructor <;> norm_num)
  rw [abs_le] at h
  have habs : |(1:ℝ)/2| = 1/2 := by norm_num
  rw [habs] at h
  norm_num at h
  linarith [h.1]

lemma sqIsland_angle : islandAngle (2 * Real.sqrt 3, 2) ((0:ℝ), 0) = Real.pi / 6 := by
  unfold islandAngle atan2
  norm_num
  have htan : Real.tan (Real.pi / 6) = 1 / Real.sqrt 3 := by
    rw [Real.tan_eq_sin_div_cos, Real.sin_pi_div_six, Real.cos_pi_div_six]
    field_simp
  have harg : (2:ℝ) / (2 * Real.sqrt 3) = 1 / Real.sqrt 3 := by
    have hne : Real.sqrt 3 ≠ 0 := by positivity
    field_simp
  rw [harg, ← htan, Real.arctan_tan]
  · have := Real.pi_pos
    linarith
  · have := Real.pi_pos
    linarith

lemma sqIsland_length : islandLength (2 * Real.sqrt 3, 2) ((0:ℝ), 0)
    = Real.sqrt 3 + 2 := by
  unfold islandLength islandDist
  have hs := Real.sq_sqrt (show (0:ℝ) ≤ 3 by norm_num)
  have h0 := Real.sqrt_nonneg 3
  have habs1 : |2 * Real.sqrt 3 - 0| = 2 * Real.sqrt 3 := by
    rw [sub_zero]
    exact abs_of_nonneg (by positivity)
  have habs2 : |(2:ℝ) - 0| = 2 := by norm_num
  have hmax : max (2 * Real.sqrt 3) 2 = 2 * Real.sqrt 3 := by
    refine max_eq_left ?_
    nlinarith
  have hdist : Real.sqrt ((2 * Real.sqrt 3 - 0) ^ 2 + ((2:ℝ) - 0) ^ 2) = 4 := by
    have h12 : (2 * Real.sqrt 3 - 0) ^ 2 + ((2:ℝ) - 0) ^ 2 = 16 := by
      nlinarith
    rw [h12, show (16:ℝ) = 4 ^ 2 by norm_num, Real.sqrt_sq (by norm_num)]
  rw [habs1, habs2, hmax, hdist]
  ring

lemma sqIsland_r1 : islandR1 6 0 3 1 (2 * Real.sqrt 3, 2) ((0:ℝ), 0)
    = 3 + 12/5 * Real.cos 1 := by
  unfold islandR1
  rw [sqIsland_angle]
  have hcast : ((3:ℕ) : ℝ) = 3 := by norm_num
  rw [hcast]
  have h6 : ((3:ℝ) + 3) * (Real.pi / 6) = Real.pi := by ring
  rw [h6, Real.cos_pi]
  have h3 : (0:ℝ) + 3 * (Real.pi / 6) + -1 = Real.pi / 2 - 1 := by ring
  rw [h3, Real.sin_pi_div_two_sub]
  norm_num
  ring

lemma sqIsland_r2 : islandR2 6 0 3 1 (2 * Real.sqrt 3, 2) ((0:ℝ), 0)
    = 21/5 - 6/5 * Real.cos (1/2) := by
  unfold islandR2
  rw [sqIsland_angle]
  have hcast : ((3:ℕ) : ℝ) = 3 := by norm_num
  rw [hcast]
  have h5 : ((3:ℝ) + 2) * (Real.pi / 6) = Real.pi - Real.pi / 6 := by ring
  rw [h5, Real.sin_pi_sub, Real.sin_pi_div_six]
  have h3 : (0:ℝ) + 3 * (Real.pi / 6) - 1/2 = Real.pi / 2 - 1/2 := by ring
  rw [h3, Real.sin_pi_div_two_sub]
  norm_num
  ring

/-- C5 counterexample: for the square centred at (2*sqrt3, 2) with centre
point the origin, pixelScale 6, startAngle 0, bumps 3, scale 1, the angle is
pi/6 and there r2 < length < r1 with length different from r1: the source's
two-disjunct test classifies the tile land through its first disjunct while
the spec's single test length < r2 classifies it water, so the claimed
equivalence away from length = r1 fails. -/
theorem island_two_term_vs_single_counterexample :
    islandLength (polygonCentroid sqIsland) ((0:ℝ), 0)
      ≠ islandR1 6 0 3 1 (polygonCentroid sqIsland) ((0:ℝ), 0) ∧
    IsTargetPokygon 6 sqIsland ((0:ℝ), 0) 0 3 1 ∧
    ¬ islandSingleTest 6 sqIsland ((0:ℝ), 0) 0 3 1 := by
  have hL : islandLength (polygonCentroid sqIsland) ((0:ℝ), 0)
      = Real.sqrt 3 + 2 := by
    rw [sqIsland_centroid]
    exact sqIsland_length
  have hr1 : islandR1 6 0 3 1 (polygonCentroid sqIsland) ((0:ℝ), 0)
      = 3 + 12/5 * Real.cos 1 := by
    rw [sqIsland_centroid]
    exact sqIsland_r1
  have hr2 : islandR2 6 0 3 1 (polygonCentroid sqIsland) ((0:ℝ), 0)
      = 21/5 - 6/5 * Real.cos (1/2) := by
    rw [sqIsland_centroid]
    exact sqIsland_r2
  obtain ⟨hs1, hs2⟩ := sqrt3_between
  have hLr1 : islandLength (polygonCentroid sqIsland) ((0:ℝ), 0)
      < islandR1 6 0 3 1 (polygonCentroid sqIsland) ((0:ℝ), 0) := by
    rw [hL, hr1]
    have := cos_one_ge
    norm_num at hs2 ⊢
    linarith
  have hr2L : islandR2 6 0 3 1 (polygonCentroid sqIsland) ((0:ℝ), 0)
      ≤ islandLength (polygonCentroid sqIsland) ((0:ℝ), 0) := by
    rw [hL, hr2]
    have := cos_half_ge
    norm_num at hs1 ⊢
    linarith
  refine ⟨ne_of_lt hLr1, Or.inl hLr1, ?_⟩
  unfold islandSingleTest
  exact not_lt.mpr hr2L

/-- C6: with bumps 3, startAngle 0, scale 1 (and ISLAND_FACTOR = 1 as
everywhere), a tile whose centroid coincides with the origin point has
length 0, strictly below r1 (whose coefficient stays in [0.1, 0.9] times
pixelScale), so it is land; and a tile whose centroid is at distance at
least 1.8 * pixelScale from the origin point has length at least
0.9 * pixelScale, at or above both radii (each at most 0.9 * pixelScale),
so it is water. -/
theorem island_origin_land_far_water (pixelScale : ℝ) (poly1 poly2 : Polygon ℝ)
    (cen : Pt ℝ) (hP : 0 < pixelScale)
    (h1 : polygonCentroid poly1 = cen)
    (h2 : 1.8 * pixelScale ≤ islandDist (polygonCentroid poly2) cen) :
    IsTargetPokygon pixelScale poly1 cen 0 3 1 ∧
    ¬ IsTargetPokygon pixelScale poly2 cen 0 3 1 := by
  have hL1 : islandLength cen cen = 0 := by
    unfold islandLength islandDist
    simp
  have hr1pos : 0 < islandR1 pixelScale 0 3 1 cen cen := by
    unfold islandR1
    set s := Real.sin (0 + ((3:ℕ) : ℝ) * islandAngle cen cen +
      Real.cos ((((3:ℕ) : ℝ) + 3) * islandAngle cen cen)) with hsdef
    have hsin : -1 ≤ s := Real.neg_one_le_sin _
    have hnn : (0:ℝ) ≤ (0.4 * s + 0.4) * pixelScale :=
      mul_nonneg (by linarith) hP.le
    nlinarith
  have hland : IsTargetPokygon pixelScale poly1 cen 0 3 1 := by
    unfold IsTargetPokygon
    rw [h1, hL1]
    exact Or.inl hr1pos
  have hL2 : 0.9 * pixelScale ≤ islandLength (polygonCentroid poly2) cen := by
    unfold islandLength
    have hmax0 : (0:ℝ) ≤ max |(polygonCentroid poly2).1 - cen.1|
        |(polygonCentroid poly2).2 - cen.2| :=
      le_trans (abs_nonneg _) (le_max_left _ _)
    norm_num
    linarith
  have hr1le : islandR1 pixelScale 0 3 1 (polygonCentroid poly2) cen
      ≤ 0.9 * pixelScale := by
    unfold islandR1
    set s := Real.sin (0 + ((3:ℕ) : ℝ) * islandAngle (polygonCentroid poly2) cen +
      Real.cos ((((3:ℕ) : ℝ) + 3) * islandAngle (polygonCentroid poly2) cen))
      with hsdef
    have hs1 : s ≤ 1 := Real.sin_le_one _
    have hnn : (0:ℝ) ≤ (0.4 - 0.4 * s) * pixelScale :=
      mul_nonneg (by linarith) hP.le
    nlinarith
  have hr2le : islandR2 pixelScale 0 3 1 (polygonCentroid poly2) cen
      ≤ 0.9 * pixelScale := by
    unfold islandR2
    set s := Real.sin (0 + ((3:ℕ) : ℝ) * islandAngle (polygonCentroid poly2) cen -
      Real.sin ((((3:ℕ) : ℝ) + 2) * islandAngle (polygonCentroid poly2) cen))
      with hsdef
    have hsin : -1 ≤ s := Real.neg_one_le_sin _
    have hnn : (0:ℝ) ≤ (0.2 + 0.2 * s) * pixelScale :=
      mul_nonneg (by linarith) hP.le
    nlinarith
  refine ⟨hland, ?_⟩
  unfold IsTargetPokygon
  rintro (h | ⟨ha, hb⟩)
  · linarith
  · linarith

lemma farSquare_centroid :
    polygonCentroid [((11:ℝ),1),(9,1),(9,-1),(11,-1)] = (10, 0) := by
  norm_num [polygonCentroid, centroidScan]

theorem island_origin_land_far_water_witness :
    IsTargetPokygon 1 [((1:ℝ),1),(-1,1),(-1,-1),(1,-1)] ((0:ℝ), 0) 0 3 1 ∧
    ¬ IsTargetPokygon 1 [((11:ℝ),1),(9,1),(9,-1),(11,-1)] ((0:ℝ), 0) 0 3 1 := by
  refine island_origin_land_far_water 1 _ _ ((0:ℝ), 0) (by norm_num)
    unitSquare_centroid ?_
  rw [farSquare_centroid]
  unfold islandDist
  norm_num
  rw [show (100:ℝ) = 10 ^ 2 by norm_num, Real.sqrt_sq (by norm_num)]
  norm_num

theorem largestConnectedComponent_spec_witness :
    ∃ pre post,
      connectedComponentsIdx (fun u => (lccAdjacency [sqA]).getD u [])
          ([sqA] : List (Polygon ℤ)).length
        = pre ++ largestConnectedComponentIdx [sqA] :: post ∧
      (∀ c ∈ pre, c.length < (largestConnectedComponentIdx [sqA]).length) ∧
      (∀ c ∈ post, c.length ≤ (largestConnectedComponentIdx [sqA]).length) ∧
      (∀ x ∈ largestConnectedComponentIdx [sqA],
        ∀ y ∈ largestConnectedComponentIdx [sqA],
          ReachWithin (fun u => (lccAdjacency [sqA]).getD u [])
            (largestConnectedComponentIdx [sqA]) x y) ∧
      largestConnectedComponent [sqA]
        = (largestConnectedComponentIdx [sqA]).map
            (fun u => ([sqA] : List (Polygon ℤ)).getD u []) :=
  largestConnectedComponent_spec [sqA] (by decide)

end GenMap
